import Mathlib

/-!
Verification of the sgsh core against its natural-language specification.

The development shallowly embeds the two source files:
* `Negotiate`  — `src/negotiate.c`, the peer-to-peer negotiation protocol;
* `Writeval`   — `src/sgsh-writeval.c`, the socket value-store server.

C machine integers are modelled as `Int` (or `Nat` where the C value is a
count that stays non-negative), C arrays and linked lists as Lean lists,
and fallible operations as `Option`/pairs with a status code.  Pointer
identity in the buffer chain is modelled by positions in the list that
represents the chain in `head` → `tail` order.
-/

namespace Negotiate

/-! ### Constants from `negotiate.c` -/

def OP_SUCCESS : Int := 0
def OP_ERROR : Int := 1
def OP_QUIT : Int := 2
def OP_EXISTS : Int := 3
def OP_CREATE : Int := 4
def OP_NOOP : Int := 5

def STDIN_FILENO : Int := 0
def STDOUT_FILENO : Int := 1

/-- Modelled from the spec: the protocol state tags declared in the missing
header `sgsh-negotiate.h`; the spec gives the state set
{`NEGOTIATION`, `NEGOTIATION_END`, `ERROR`}, so they are three distinct tags. -/
def PROT_STATE_NEGOTIATION : Int := 0

/-- Modelled from the spec: see `PROT_STATE_NEGOTIATION`. -/
def PROT_STATE_NEGOTIATION_END : Int := 1

/-- Modelled from the spec: see `PROT_STATE_NEGOTIATION`. -/
def PROT_STATE_ERROR : Int := 2

/-! ### Data model (`struct dispatcher_node`, `struct sgsh_edge`,
`struct sgsh_node`, `struct sgsh_negotiation`) -/

/-- `struct dispatcher_node`: the node and node's fd that sent the message block. -/
structure dispatcher_node where
  index : Int
  fd_direction : Int
deriving DecidableEq

/-- `struct sgsh_edge`: an I/O connection between tools on an sgsh graph.
`from` and `to` are Lean keywords, so the fields are called `from_` and `to_`. -/
structure sgsh_edge where
  from_ : Int
  to_ : Int
deriving DecidableEq

/-- `struct sgsh_node`: a tool that participates in an sgsh graph. -/
structure sgsh_node where
  pid : Int
  name : String
  requires_channels : Int
  provides_channels : Int
  sgsh_in : Int
  sgsh_out : Int
deriving DecidableEq

/-- `struct sgsh_negotiation`, the message block (MB).  The C block is one
flat allocation: header, then the node array, then the edge array.  The
arrays are modelled as lists (so `n_nodes`/`n_edges` are the list lengths,
which the C code keeps in sync with the arrays), and the two internal
array pointers are modelled as byte offsets from the start of the block
(`node_off` for `node_array`, `edge_off` for `edge_array`; the C `NULL`
pointer is offset `0`).  The `version` field (a C `double` constant `1.0`
never inspected by the code under verification) is omitted. -/
structure sgsh_negotiation where
  node_array : List sgsh_node
  edge_array : List sgsh_edge
  initiator_pid : Int
  state_flag : Int
  serial_no : Int
  origin : dispatcher_node
  total_size : Nat
  node_off : Nat
  edge_off : Nat
deriving DecidableEq

/-- The process-global mutable state of `negotiate.c`:
`chosen_mb`, `self_node` and `self_dispatcher`. -/
structure NegotiationState where
  chosen_mb : sgsh_negotiation
  self_node : sgsh_node
  self_dispatcher : dispatcher_node
deriving DecidableEq

/-! ### Sizes

The C code grows the flat block by `sizeof(struct sgsh_node)` /
`sizeof(struct sgsh_edge)`; the header occupies
`sizeof(struct sgsh_negotiation)` bytes.  The three sizes are platform
constants; all theorems hold for every choice, so they are passed as
parameters. -/

variable (hdrSize nodeSize edgeSize : Nat)

/-! ### Operations -/

/-- `set_dispatcher`: copy `self_dispatcher` into the MB's `origin`. -/
def set_dispatcher (s : NegotiationState) : NegotiationState :=
  { s with chosen_mb := { s.chosen_mb with
      origin := ⟨s.self_dispatcher.index, s.self_dispatcher.fd_direction⟩ } }

/-- `write_mb`: write the message block to the transmit buffer and ship it.
Returns the status together with the block image that was copied into `buf`
and written to the dispatch fd (`none` when nothing was copied or written),
and the state after the call (`set_dispatcher` mutates the MB's origin). -/
def write_mb (s : NegotiationState) (buf_size : Nat) :
    Int × NegotiationState × Option sgsh_negotiation :=
  if s.chosen_mb.total_size > buf_size then (OP_ERROR, s, none)
  else
    let s' := set_dispatcher s
    (OP_SUCCESS, s', some s'.chosen_mb)

/-- `check_negotiation_round`: decide whether the negotiation phase should
end.  `negotiation_round` models the `int` counter owned by
`sgsh_negotiate` (it starts at 0 and is only ever incremented, so `Nat`);
`updated_mb_serial_no` is the flag produced by the previous
`compete_message_block`. -/
def check_negotiation_round (self_pid : Int) (mb : sgsh_negotiation)
    (negotiation_round : Nat) (updated_mb_serial_no : Bool) :
    Nat × sgsh_negotiation :=
  if self_pid = mb.initiator_pid then
    let r := negotiation_round + 1
    if r = 3 ∧ ¬updated_mb_serial_no then
      (r, { mb with state_flag := PROT_STATE_NEGOTIATION_END,
                    serial_no := mb.serial_no + 1 })
    else (r, mb)
  else (negotiation_round, mb)

/-- Iterated `check_negotiation_round`: one entry of `updated` per arrival
of the MB at this process, in order (this is the sequence of values the
`negotiation_round`/`updated_mb_serial_no` pair takes in the
`sgsh_negotiate` loop). -/
def run_rounds (self_pid : Int) : Nat → sgsh_negotiation → List Bool →
    Nat × sgsh_negotiation
  | r, mb, [] => (r, mb)
  | r, mb, u :: us =>
      let p := check_negotiation_round self_pid mb r u
      run_rounds self_pid p.1 p.2 us

/-- `realloc_mb_new_node`: grow the block by one node, relocating the edge
array.  The C code reallocates, points `node_array` right after the header
and `edge_array` right after `n_nodes + 1` nodes (the node to be added is
not appended yet), and copies the edge bytes back. -/
def realloc_mb_new_node (mb : sgsh_negotiation) : sgsh_negotiation :=
  { mb with total_size := mb.total_size + nodeSize,
            node_off := hdrSize,
            edge_off := hdrSize + (mb.node_array.length + 1) * nodeSize }

/-- `realloc_mb_new_edge`: grow the block by one edge. -/
def realloc_mb_new_edge (mb : sgsh_negotiation) : sgsh_negotiation :=
  { mb with total_size := mb.total_size + edgeSize,
            node_off := hdrSize,
            edge_off := hdrSize + mb.node_array.length * nodeSize }

/-- `lookup_sgsh_edge`: does the edge already occur in the graph? -/
def lookup_sgsh_edge (mb : sgsh_negotiation) (e : sgsh_edge) : Int :=
  if mb.edge_array.any (fun x => x.from_ == e.from_ && x.to_ == e.to_)
  then OP_EXISTS else OP_CREATE

/-- The final value of `i` after the C loop
`for (i = 0; n_nodes; i++) if (i == chosen_mb->origin.index) break;`
in `fill_sgsh_edge`.  The loop condition is the constant `n_nodes`: when
`n_nodes == 0` the body never runs and `i` stays `0`; otherwise the loop
only stops at the `break`, i.e. when `i` reaches `origin.index` (for the
negative `origin.index` the C loop would not terminate, but
`try_add_sgsh_edge` calls `fill_sgsh_edge` only when `origin.index >= 0`). -/
def fill_loop_i (n_nodes : Int) (origin_index : Int) : Int :=
  if n_nodes = 0 then 0 else origin_index

/-- `fill_sgsh_edge`: fill the edge implied by the MB's `origin` and self.
The C writes through `struct sgsh_edge *e`, which is uninitialized stack
memory of the caller when nothing is written; `g` models that garbage
content.  Returns the edge value and the status. -/
def fill_sgsh_edge (s : NegotiationState) (g : sgsh_edge) : sgsh_edge × Int :=
  let n_nodes : Int := s.chosen_mb.node_array.length
  let i := fill_loop_i n_nodes s.chosen_mb.origin.index
  if i = n_nodes then (g, OP_ERROR)
  else if s.chosen_mb.origin.fd_direction = STDIN_FILENO then
    ({ from_ := s.self_dispatcher.index, to_ := s.chosen_mb.origin.index },
     OP_SUCCESS)
  else if s.chosen_mb.origin.fd_direction = STDOUT_FILENO then
    ({ from_ := s.chosen_mb.origin.index, to_ := s.self_dispatcher.index },
     OP_SUCCESS)
  else (g, OP_SUCCESS)

/-- `try_add_sgsh_edge`: add the edge implied by the last hop, if any.
Faithful to the C code, the status of `fill_sgsh_edge` is ignored and the
(possibly unfilled) edge is used. -/
def try_add_sgsh_edge (s : NegotiationState) (g : sgsh_edge) :
    NegotiationState × Int :=
  if 0 ≤ s.chosen_mb.origin.index then
    let new_edge := (fill_sgsh_edge s g).1
    if lookup_sgsh_edge s.chosen_mb new_edge = OP_CREATE then
      let mb1 := realloc_mb_new_edge hdrSize nodeSize edgeSize s.chosen_mb
      let mb2 := { mb1 with edge_array := mb1.edge_array ++ [new_edge],
                            serial_no := mb1.serial_no + 1 }
      ({ s with chosen_mb := mb2 }, OP_SUCCESS)
    else (s, OP_EXISTS)
  else (s, OP_NOOP)

/-- `try_add_sgsh_node`: add `self_node` to the MB if a node with its pid
is absent; record self's index in the dispatcher either way. -/
def try_add_sgsh_node (s : NegotiationState) : NegotiationState × Int :=
  let n_nodes := s.chosen_mb.node_array.length
  let i := s.chosen_mb.node_array.findIdx (fun nd => nd.pid == s.self_node.pid)
  if i = n_nodes then
    let mb1 := realloc_mb_new_node hdrSize nodeSize s.chosen_mb
    let mb2 := { mb1 with node_array := mb1.node_array ++ [s.self_node],
                          serial_no := mb1.serial_no + 1 }
    ({ s with chosen_mb := mb2,
              self_dispatcher := { s.self_dispatcher with index := (n_nodes : Int) } },
     OP_SUCCESS)
  else
    ({ s with self_dispatcher := { s.self_dispatcher with index := (i : Int) } },
     OP_EXISTS)

/-- `compete_message_block`: decide between the chosen MB and a freshly
read one.  Returns the new state together with `should_transmit_mb` and
`updated_mb_serial_no`.  In the C code the only error source inside this
function is `realloc` failure, which the model treats as never occurring. -/
def compete_message_block (s : NegotiationState)
    (fresh_mb : sgsh_negotiation) (g : sgsh_edge) :
    NegotiationState × Bool × Bool :=
  if fresh_mb.initiator_pid < s.chosen_mb.initiator_pid then
    let s1 := { s with chosen_mb := fresh_mb }
    let s2 := (try_add_sgsh_node hdrSize nodeSize s1).1
    let s3 := (try_add_sgsh_edge hdrSize nodeSize edgeSize s2 g).1
    (s3, true, true)
  else if fresh_mb.initiator_pid > s.chosen_mb.initiator_pid then
    (s, false, false)
  else
    let upd := fresh_mb.serial_no > s.chosen_mb.serial_no
    let s1 := if fresh_mb.serial_no > s.chosen_mb.serial_no
              then { s with chosen_mb := fresh_mb } else s
    let s2 := (try_add_sgsh_edge hdrSize nodeSize edgeSize s1 g).1
    (s2, true, upd)

/-- `construct_message_block`: create the initiator's MB.  The C code
mallocs `sizeof(struct sgsh_negotiation)` bytes and initializes every
field except `edge_array` and `n_edges`, which keep whatever bytes
`malloc` returned; `garbage_edges` and `garbage_edge_off` model those
indeterminate contents (`n_edges` is `garbage_edges.length`).
`node_array` is set to `NULL`, modelled as offset `0`. -/
def construct_message_block (self_pid : Int)
    (garbage_edges : List sgsh_edge) (garbage_edge_off : Nat) :
    sgsh_negotiation :=
  { node_array := [],
    edge_array := garbage_edges,
    initiator_pid := self_pid,
    state_flag := PROT_STATE_NEGOTIATION,
    serial_no := 0,
    origin := ⟨-1, -1⟩,
    total_size := hdrSize,
    node_off := 0,
    edge_off := garbage_edge_off }

/-- The MB layout invariant claimed by the spec: the total size is the
header plus the two arrays, the node array sits right after the header
and the edge array right after the node array (the placement clauses are
conditioned on the array being non-empty, since an empty array occupies
no bytes and its pointer may be the `NULL` left by
`construct_message_block`). -/
def mb_layout (mb : sgsh_negotiation) : Prop :=
  mb.total_size
      = hdrSize + mb.node_array.length * nodeSize + mb.edge_array.length * edgeSize
  ∧ (mb.node_array ≠ [] → mb.node_off = hdrSize)
  ∧ (mb.edge_array ≠ [] →
      mb.edge_off = hdrSize + mb.node_array.length * nodeSize)

instance (mb : sgsh_negotiation) :
    Decidable (mb_layout hdrSize nodeSize edgeSize mb) := by
  unfold mb_layout; infer_instance

/-- `alloc_copy_mb(struct sgsh_negotiation *mb, char *buf, int bytes_read,
int buf_size)`: its very first statement reads `mb->total_size` through
the incoming pointer, so when the caller passes `NULL` (`mb = none`) the
program faults right there — modelled as the whole call returning `none`.
Otherwise `bytes_read` is validated against the incoming block header and
against `buf_size`, and on success `mb = malloc(bytes_read)` plus
`memcpy` overwrite the **by-value** parameter with the decoded copy of
`buf`.  The result pair is the status and the final value of the callee's
local `mb` variable, which the caller never observes. -/
def alloc_copy_mb (mb : Option sgsh_negotiation) (buf : sgsh_negotiation)
    (bytes_read buf_size : Nat) : Option (Int × Option sgsh_negotiation) :=
  match mb with
  | none => none
  | some m =>
      if bytes_read ≠ m.total_size then some (OP_ERROR, some m)
      else if bytes_read > buf_size then some (OP_ERROR, some m)
      else some (OP_SUCCESS, some buf)

/-- `try_read_message_block`, successful-read path: `buf` holds the bytes
just read (decoded as a block) and `bytes_read` their count.  The
parameter `fresh_mb` is the caller's pointer, passed by value; the second
component of the result is the value of the **caller's** `fresh_mb`
variable after the call — the allocation made inside `alloc_copy_mb` is
assigned to a local copy and lost.  `none` propagates the fault inside
`alloc_copy_mb`. -/
def try_read_message_block (fresh_mb : Option sgsh_negotiation)
    (buf : sgsh_negotiation) (bytes_read buf_size : Nat) :
    Option (Int × Option sgsh_negotiation) :=
  match alloc_copy_mb fresh_mb buf bytes_read buf_size with
  | none => none
  | some r =>
      if r.1 = OP_ERROR then some (OP_ERROR, fresh_mb)
      else some (OP_SUCCESS, fresh_mb)

/-- A concrete `sgsh_node` for evaluating the model. -/
def sample_node (pid : Int) : sgsh_node :=
  ⟨pid, "tool", 1, 1, 1, 1⟩

/-- A concrete freshly-initialized MB (as the spec intends it, with an
empty edge array) for evaluating the model. -/
def sample_mb (pid : Int) : sgsh_negotiation :=
  ⟨[], [], pid, PROT_STATE_NEGOTIATION, 0, ⟨-1, -1⟩, 0, 0, 0⟩

/-- The fragment of the `sgsh_negotiate` round loop that transmits the MB
(lines 611–618): run `check_negotiation_round`, then, if
`should_transmit_mb`, `write_mb`; a `write_mb` failure makes
`sgsh_negotiate` return `OP_ERROR` at once (modelled as `Except.error`).
On the `ok` path the result carries the new round counter, the state after
the call and the block image transmitted (if any). -/
def negotiation_transmit_phase (s : NegotiationState) (negotiation_round : Nat)
    (updated_mb_serial_no : Bool) (should_transmit_mb : Bool) (buf_size : Nat) :
    Except Int (Nat × NegotiationState × Option sgsh_negotiation) :=
  let p := check_negotiation_round s.self_node.pid s.chosen_mb
            negotiation_round updated_mb_serial_no
  let s1 := { s with chosen_mb := p.2 }
  if should_transmit_mb then
    let w := write_mb s1 buf_size
    if w.1 = OP_ERROR then Except.error OP_ERROR
    else Except.ok (p.1, w.2.1, w.2.2)
  else Except.ok (p.1, s1, none)

end Negotiate

namespace Writeval

/-! ### Constants and client states from `sgsh-writeval.c` -/

def CONTENT_LENGTH_DIGITS : Nat := 10

/-- The anonymous `enum` inside `struct client`. -/
inductive client_state where
  | s_inactive
  | s_read_command
  | s_send_current
  | s_send_last
  | s_sending_response
  | s_wait_close
deriving DecidableEq

/-! ### Command dispatch (`read_command`) and the select interest sets -/

/-- What the server does in reaction to an event on a `read_command`
client's socket. -/
inductive command_action where
  /-- The client moves to the given state. -/
  | set_state (st : client_state)
  /-- The whole server process exits with `code`, after unlinking the
  socket path iff `unlink_socket`. -/
  | server_exit (unlink_socket : Bool) (code : Nat)
deriving DecidableEq

/-- The command dispatch of `read_command` (the `default:` branch of its
outer `switch`, reached when `read` returned one byte).  `cmd` is the byte
read; the cases appear in the order of the C `switch`:
`'L'` = 76, `'Q'` = 81, `'C'` = 67. -/
def read_command_dispatch (cmd : Nat) : command_action :=
  if cmd = 76 then .set_state .s_send_last
  else if cmd = 81 then .server_exit true 0
  else if cmd = 67 then .set_state .s_send_current
  else .server_exit false 1

/-- Whether the main loop places a client's fd in the writable
(`sink_fds`) set, as a function of its state and the two stream flags
(`main`, the per-client `switch` that builds the fd sets). -/
def client_wants_write (st : client_state)
    (reached_eof have_record : Bool) : Bool :=
  match st with
  | .s_send_last => reached_eof
  | .s_send_current => have_record
  | .s_sending_response => true
  | _ => false

/-! ### Buffer counters (`struct buffer`, `set_buffer_counters`)

For the counter claims a buffer is its payload bytes plus the two running
counters; `size` is the byte count returned by `read`, i.e. `data.length`. -/

/-- The counter-relevant part of `struct buffer`.  `record_count` and
`byte_count` are C `long long`, modelled as `Int`. -/
structure counted_buffer where
  data : List Nat
  record_count : Int
  byte_count : Int
deriving DecidableEq

/-- `set_buffer_counters` on a freshly appended buffer `b` whose
predecessor is `prev` (`none` when `b` is the first buffer).  `rl` is the
record length (`0` = record-separator mode), `rs` the separator byte.
In separator mode the C code writes only `record_count`; `byte_count`
keeps whatever the uninitialized allocation held.  In fixed-length mode
the C computes `record_count = byte_count / rl` with C `/`, which
truncates toward zero (`Int.tdiv`). -/
def set_buffer_counters (rl : Nat) (rs : Nat)
    (prev : Option counted_buffer) (b : counted_buffer) : counted_buffer :=
  if rl = 0 then
    let base : Int := match prev with | some p => p.record_count | none => 0
    { b with record_count := base + (b.data.countP (fun ch => ch == rs) : Int) }
  else
    let base : Int := match prev with | some p => p.byte_count | none => 0
    let bc : Int := base + (b.data.length : Int)
    { b with byte_count := bc, record_count := bc.tdiv (rl : Int) }

/-! ### The buffer chain as a pointer structure
(`oldest_buffer`, `update_oldest_buffer`, `free_unused_buffers`)

For the trimming claims only the identity and order of the buffers
matter; the chain is the list of the buffers' identities in
`head` → `tail` order (distinct allocations have distinct identities). -/

/-- The position of the first occurrence of `x` in the chain; chain order
`a` before `b` is `chain_pos a ≤ chain_pos b`. -/
def chain_pos : List Nat → Nat → Nat
  | [], _ => 0
  | b :: t, x => if b = x then 0 else chain_pos t x + 1

/-- `oldest_buffer`: of two buffer pointers, the one that comes first in
the list (scan from `head`).  `none` models the `NULL` pointer; the
`find?` result `none` models the `assert(0)` at the end of the scan. -/
def oldest_buffer (chain : List Nat) :
    Option Nat → Option Nat → Option Nat
  | none, b => b
  | some a, none => some a
  | some a, some b => chain.find? (fun bp => bp == a || bp == b)

/-- The per-client data `update_oldest_buffer` and `free_unused_buffers`
look at: the state and the two write-cursor buffers. -/
structure chain_client where
  state : client_state
  write_begin_b : Nat
  write_end_b : Nat
deriving DecidableEq

/-- `update_oldest_buffer`: recompute `oldest_buffer_being_written` over
all clients currently sending a response (the C iterates over the fixed
`clients[MAX_CLIENTS]` array; the model folds over the client list). -/
def update_oldest_buffer (chain : List Nat)
    (clients : List chain_client) : Option Nat :=
  clients.foldl
    (fun acc c =>
      if c.state = .s_sending_response
      then oldest_buffer chain acc (some c.write_begin_b) else acc)
    none

/-- `free_unused_buffers`: free buffers from the head until reaching
`current_record_begin.b` (`crb`) or `oldest_buffer_being_written` (`obw`);
that buffer becomes the new head.  `none` models the final `assert(0)`
(neither stop buffer was found in the chain). -/
def free_unused_buffers : List Nat → Nat → Option Nat → Option (List Nat)
  | [], _, _ => none
  | b :: rest, crb, obw =>
      if b = crb ∨ some b = obw then some (b :: rest)
      else free_unused_buffers rest crb obw

/-- The stop condition of `free_unused_buffers` at buffer `b`. -/
def stop_buffer (crb : Nat) (obw : Option Nat) (b : Nat) : Bool :=
  b == crb || some b == obw

/-! ### The buffer chain as bytes (`dpointer`, `content_length`,
`write_record`)

For the response round-trip claim the chain is the list of the buffers'
payloads in `head` → `tail` order; a `struct dpointer` is a buffer index
into that list plus an offset, and `b->next` is index `b + 1`. -/

/-- `struct dpointer`: a pointer to a character stored in a buffer. -/
structure dpointer where
  b : Nat
  pos : Nat
deriving DecidableEq

/-- The byte payload of buffer `b` of the chain. -/
def buf_data (chain : List (List Nat)) (b : Nat) : List Nat :=
  chain.getD b []

/-- `b->size`: the populated byte count of buffer `b`. -/
def buf_size (chain : List (List Nat)) (b : Nat) : Nat :=
  (buf_data chain b).length

/-- The client fields `write_record` works on (a view of `struct client`):
the two cursors bracketing the record being streamed and the state. -/
structure write_client where
  write_begin : dpointer
  write_end : dpointer
  state : client_state
deriving DecidableEq

/-- The bytes of the chain from `⟨b1, p1⟩` (inclusive) to `⟨b2, p2⟩`
(exclusive), by recursion on the number of buffer hops `b2 - b1`. -/
def range_bytes_fuel (chain : List (List Nat)) :
    Nat → Nat → Nat → Nat → List Nat
  | 0, b1, p1, p2 => ((buf_data chain b1).take p2).drop p1
  | fuel + 1, b1, p1, p2 =>
      (buf_data chain b1).drop p1 ++ range_bytes_fuel chain fuel (b1 + 1) 0 p2

/-- The byte range of the chain between two cursors. -/
def range_bytes (chain : List (List Nat)) (d1 d2 : dpointer) : List Nat :=
  range_bytes_fuel chain (d2.b - d1.b) d1.b d1.pos d2.pos

/-- `content_length`: the length of the record bracketed by the client's
cursors, computed exactly as the C loop does: bytes left in the first
buffer, plus the full sizes of the buffers strictly between the two
cursors, plus the end offset. -/
def content_length (chain : List (List Nat)) (c : write_client) : Nat :=
  if c.write_begin.b = c.write_end.b then
    c.write_end.pos - c.write_begin.pos
  else
    (buf_size chain c.write_begin.b - c.write_begin.pos)
    + (((chain.drop (c.write_begin.b + 1)).take
          (c.write_end.b - (c.write_begin.b + 1))).map List.length).sum
    + c.write_end.pos

/-- The little-endian decimal digits of `n` (no digits for `0`), with
explicit fuel; `dec_le CONTENT_LENGTH_DIGITS n` is the full digit string
of every `n < 10^10`, so of every C `unsigned int`. -/
def dec_le : Nat → Nat → List Nat
  | 0, _ => []
  | fuel + 1, n => if n = 0 then [] else n % 10 :: dec_le fuel (n / 10)

/-- The value denoted by a little-endian digit string. -/
def le_value : List Nat → Nat
  | [] => 0
  | d :: t => d + 10 * le_value t

/-- The number a client reads off an ASCII decimal string sent most
significant digit first. -/
def dec_value (l : List Nat) : Nat :=
  l.foldl (fun a d => a * 10 + (d - 48)) 0

/-- The `CONTENT_LENGTH_FORMAT` (`"%010u"`) rendering of `n`: its decimal
digits as ASCII bytes (`'0'` = 48), most significant first, left-padded
with `'0'` to `CONTENT_LENGTH_DIGITS` characters.  For every `n < 10^10`
(so for every C `unsigned int`) this is exactly what `snprintf` produces. -/
def content_length_header (n : Nat) : List Nat :=
  let ds := (dec_le CONTENT_LENGTH_DIGITS n).reverse.map (fun d => d + 48)
  List.replicate (CONTENT_LENGTH_DIGITS - ds.length) 48 ++ ds

/-- One completed `writev` inside `write_record`.  `write_length` is the
C flag selecting the first send (header plus payload); `n` is the byte
count `writev` returned.  The result is the updated client and the bytes
the peer received from this call; `none` models the two fatal exits
(`writev` accepting more than requested cannot happen, and a return below
`CONTENT_LENGTH_DIGITS` on the first send is the
"Short content length record write" `exit(1)`).  An `EAGAIN` return
changes nothing and sends nothing, so it is modelled by omitting the call. -/
def write_record (chain : List (List Nat)) (c : write_client)
    (write_length : Bool) (n : Nat) : Option (write_client × List Nat) :=
  let towrite :=
    if c.write_begin.b = c.write_end.b then
      c.write_end.pos - c.write_begin.pos
    else
      buf_size chain c.write_begin.b - c.write_begin.pos
  let chunk := ((buf_data chain c.write_begin.b).drop c.write_begin.pos).take towrite
  let header := if write_length
                then content_length_header (content_length chain c) else []
  if n > header.length + towrite then none
  else if write_length ∧ n < CONTENT_LENGTH_DIGITS then none
  else
    let received := (header ++ chunk).take n
    let n' := n - header.length
    let pos' := c.write_begin.pos + n'
    if pos' < buf_size chain c.write_begin.b ∧
       (c.write_begin.b ≠ c.write_end.b ∨ pos' < c.write_end.pos) then
      some ({ c with write_begin := ⟨c.write_begin.b, pos'⟩ }, received)
    else if c.write_begin.b ≠ c.write_end.b then
      some ({ c with write_begin := ⟨c.write_begin.b + 1, 0⟩ }, received)
    else
      some ({ c with write_begin := ⟨c.write_begin.b, pos'⟩,
                     state := .s_wait_close }, received)

/-- A whole response transfer: the main loop calls `write_record` with
`write_length` on entering `s_sending_response` and without it afterwards,
until the client reaches `s_wait_close`.  `ns` is the sequence of byte
counts the successive `writev` calls return; the result accumulates the
bytes the peer received. -/
def run_write (chain : List (List Nat)) :
    write_client → Bool → List Nat → Option (write_client × List Nat)
  | c, _, [] => some (c, [])
  | c, first, n :: rest =>
      if c.state = .s_wait_close then some (c, [])
      else
        match write_record chain c first n with
        | none => none
        | some (c1, received) =>
            match run_write chain c1 false rest with
            | none => none
            | some (cF, tailBytes) => some (cF, received ++ tailBytes)

/-- The snapshot taken when a client enters `s_sending_response`
(`main`, lines 779–781): the write cursors are set to the current record
cursors and the state flips to `s_sending_response`. -/
def snapshot_client (crb cre : dpointer) : write_client :=
  { write_begin := crb, write_end := cre, state := .s_sending_response }

/-- Validity of a client's cursor pair with respect to the chain: both
cursors lie inside the chain, the begin cursor is not after the end
cursor, and offsets stay within their buffers. -/
def cursors_ok (chain : List (List Nat)) (c : write_client) : Prop :=
  c.write_end.b < chain.length
  ∧ c.write_begin.b ≤ c.write_end.b
  ∧ c.write_begin.pos ≤ buf_size chain c.write_begin.b
  ∧ c.write_end.pos ≤ buf_size chain c.write_end.b
  ∧ (c.write_begin.b = c.write_end.b → c.write_begin.pos ≤ c.write_end.pos)

instance (chain : List (List Nat)) (c : write_client) :
    Decidable (cursors_ok chain c) := by
  unfold cursors_ok; infer_instance

end Writeval

namespace Negotiate

/-! ## Helper lemmas for the negotiator -/

/-- After `try_add_sgsh_node` a node carrying `self_node.pid` is present
in the chosen MB's node array. -/
theorem try_add_sgsh_node_any (h n : Nat) (s : NegotiationState) :
    (((try_add_sgsh_node h n s).1).chosen_mb.node_array.any
      (fun nd => nd.pid == s.self_node.pid)) = true := by
  have hle := @List.findIdx_le_length _ (fun nd => nd.pid == s.self_node.pid)
    s.chosen_mb.node_array
  by_cases hc : List.findIdx (fun nd => nd.pid == s.self_node.pid)
      s.chosen_mb.node_array = s.chosen_mb.node_array.length
  · simp [try_add_sgsh_node, hc, realloc_mb_new_node]
  · have hlt := Nat.lt_of_le_of_ne hle hc
    have hex := List.findIdx_lt_length.mp hlt
    simpa [try_add_sgsh_node, hc] using List.any_eq_true.mpr hex

/-- `try_add_sgsh_node` changes neither the MB's initiator nor `self_node`. -/
theorem try_add_sgsh_node_facts (h n : Nat) (s : NegotiationState) :
    ((try_add_sgsh_node h n s).1).chosen_mb.initiator_pid
        = s.chosen_mb.initiator_pid
    ∧ (try_add_sgsh_node h n s).1.self_node = s.self_node := by
  simp only [try_add_sgsh_node]
  split <;> simp [realloc_mb_new_node]

/-- `try_add_sgsh_edge` keeps the node array and the initiator and never
decreases the serial number. -/
theorem try_add_sgsh_edge_facts (h n e : Nat) (s : NegotiationState)
    (g : sgsh_edge) :
    ((try_add_sgsh_edge h n e s g).1).chosen_mb.node_array
        = s.chosen_mb.node_array
    ∧ ((try_add_sgsh_edge h n e s g).1).chosen_mb.initiator_pid
        = s.chosen_mb.initiator_pid
    ∧ s.chosen_mb.serial_no ≤ ((try_add_sgsh_edge h n e s g).1).chosen_mb.serial_no := by
  simp only [try_add_sgsh_edge]
  split
  · split
    · simp [realloc_mb_new_edge]
    · simp
  · simp

/-- `run_rounds` sets the end flag exactly when some arrival is the third
one overall and reports no serial bump (the round counter is never reset). -/
theorem run_rounds_end_iff (us : List Bool) :
    ∀ (r : Nat) (mb : sgsh_negotiation),
      ((run_rounds mb.initiator_pid r mb us).2.state_flag
          = PROT_STATE_NEGOTIATION_END
        ↔ mb.state_flag = PROT_STATE_NEGOTIATION_END
          ∨ ∃ i, i < us.length ∧ r + i + 1 = 3 ∧ us.getD i true = false) := by
  induction us with
  | nil =>
      intro r mb
      simp [run_rounds]
  | cons u us ih =>
      intro r mb
      have hinit : (check_negotiation_round mb.initiator_pid mb r u).2.initiator_pid
          = mb.initiator_pid := by
        unfold check_negotiation_round
        rw [if_pos rfl]
        dsimp only
        split <;> simp
      have hrun : run_rounds mb.initiator_pid r mb (u :: us)
          = run_rounds mb.initiator_pid
              (check_negotiation_round mb.initiator_pid mb r u).1
              (check_negotiation_round mb.initiator_pid mb r u).2 us := rfl
      rw [hrun]
      have ih2 := ih (check_negotiation_round mb.initiator_pid mb r u).1
        (check_negotiation_round mb.initiator_pid mb r u).2
      rw [hinit] at ih2
      rw [ih2]
      have hr1 : (check_negotiation_round mb.initiator_pid mb r u).1 = r + 1 := by
        unfold check_negotiation_round
        rw [if_pos rfl]
        dsimp only
        split <;> simp
      have hstate : ((check_negotiation_round mb.initiator_pid mb r u).2.state_flag
            = PROT_STATE_NEGOTIATION_END
          ↔ (r + 1 = 3 ∧ u = false) ∨ mb.state_flag = PROT_STATE_NEGOTIATION_END) := by
        unfold check_negotiation_round
        rw [if_pos rfl]
        dsimp only
        split
        · next hcond =>
            simp only [Bool.not_eq_true] at hcond
            simp [hcond.1, hcond.2]
        · next hcond =>
            constructor
            · intro hs
              right
              exact hs
            · rintro (⟨h3, hu⟩ | hs)
              · exact absurd ⟨h3, by simp [hu]⟩ hcond
              · exact hs
      rw [hr1, hstate]
      constructor
      · rintro (((⟨h3, hu⟩ | hs) | ⟨i, hi, hri, hui⟩))
        · exact Or.inr ⟨0, by simp, by omega, by simpa using hu⟩
        · exact Or.inl hs
        · exact Or.inr ⟨i + 1, by simpa using hi, by omega, by simpa using hui⟩
      · rintro (hs | ⟨i, hi, hri, hui⟩)
        · exact Or.inl (Or.inr hs)
        · cases i with
          | zero =>
              exact Or.inl (Or.inl ⟨by omega, by simpa using hui⟩)
          | succ j =>
              exact Or.inr ⟨j, by simpa using hi, by omega, by simpa using hui⟩

/-! ## Claim theorems for the negotiator -/

/-- C1: `compete_message_block` behaves by the three-way comparison of
initiator pids.  A strictly smaller fresh initiator wins: the fresh MB is
adopted, self is re-added as node and incident edge (`try_add_sgsh_node`
then `try_add_sgsh_edge` on the adopted block), the serial is marked
updated and transmission continues, and afterwards the chosen MB carries
the fresh initiator and a node with self's pid.  A strictly larger fresh
initiator loses: the state is unchanged (the fresh MB is dropped) and
nothing is transmitted this round.  Equal initiators: the MB with the
strictly higher serial number is kept, the implied edge is attempted on
the kept block, transmission continues, and the kept serial number is at
least the larger of the two. -/
theorem compete_message_block_cases (h n e : Nat) (s : NegotiationState)
    (fresh_mb : sgsh_negotiation) (g : sgsh_edge) :
    (fresh_mb.initiator_pid < s.chosen_mb.initiator_pid →
      compete_message_block h n e s fresh_mb g
          = ((try_add_sgsh_edge h n e
                (try_add_sgsh_node h n { s with chosen_mb := fresh_mb }).1 g).1,
             true, true)
      ∧ (compete_message_block h n e s fresh_mb g).1.chosen_mb.initiator_pid
          = fresh_mb.initiator_pid
      ∧ ((compete_message_block h n e s fresh_mb g).1.chosen_mb.node_array.any
            (fun nd => nd.pid == s.self_node.pid)) = true)
    ∧ (s.chosen_mb.initiator_pid < fresh_mb.initiator_pid →
      compete_message_block h n e s fresh_mb g = (s, false, false))
    ∧ (fresh_mb.initiator_pid = s.chosen_mb.initiator_pid →
      compete_message_block h n e s fresh_mb g
          = ((try_add_sgsh_edge h n e
                (if s.chosen_mb.serial_no < fresh_mb.serial_no
                 then { s with chosen_mb := fresh_mb } else s) g).1,
             true, decide (s.chosen_mb.serial_no < fresh_mb.serial_no))
      ∧ max fresh_mb.serial_no s.chosen_mb.serial_no
          ≤ (compete_message_block h n e s fresh_mb g).1.chosen_mb.serial_no) := by
  refine ⟨?_, ?_, ?_⟩
  · intro hlt
    have hcomp : compete_message_block h n e s fresh_mb g
        = ((try_add_sgsh_edge h n e
              (try_add_sgsh_node h n { s with chosen_mb := fresh_mb }).1 g).1,
           true, true) := by
      simp only [compete_message_block]
      rw [if_pos hlt]
    refine ⟨hcomp, ?_, ?_⟩
    · rw [hcomp]
      have he := try_add_sgsh_edge_facts h n e
        (try_add_sgsh_node h n { s with chosen_mb := fresh_mb }).1 g
      have hn := try_add_sgsh_node_facts h n { s with chosen_mb := fresh_mb }
      simp only [he.2.1, hn.1]
    · rw [hcomp]
      have he := try_add_sgsh_edge_facts h n e
        (try_add_sgsh_node h n { s with chosen_mb := fresh_mb }).1 g
      have hn2 := try_add_sgsh_node_any h n { s with chosen_mb := fresh_mb }
      simpa [he.1] using hn2
  · intro hgt
    simp only [compete_message_block]
    rw [if_neg (by omega), if_pos (by omega)]
  · intro heq
    have hnlt : ¬fresh_mb.initiator_pid < s.chosen_mb.initiator_pid := by omega
    have hngt : ¬fresh_mb.initiator_pid > s.chosen_mb.initiator_pid := by omega
    have hcomp : compete_message_block h n e s fresh_mb g
        = ((try_add_sgsh_edge h n e
              (if s.chosen_mb.serial_no < fresh_mb.serial_no
               then { s with chosen_mb := fresh_mb } else s) g).1,
           true, decide (s.chosen_mb.serial_no < fresh_mb.serial_no)) := by
      simp only [compete_message_block]
      rw [if_neg hnlt, if_neg hngt]
    refine ⟨hcomp, ?_⟩
    rw [hcomp]
    by_cases hser : s.chosen_mb.serial_no < fresh_mb.serial_no
    · have he := (try_add_sgsh_edge_facts h n e
        { s with chosen_mb := fresh_mb } g).2.2
      rw [if_pos hser]
      dsimp only
      dsimp only at he
      omega
    · have he := (try_add_sgsh_edge_facts h n e s g).2.2
      rw [if_neg hser]
      dsimp only
      omega

/-- C1 witness: the three cases of `compete_message_block_cases`
evaluated at concrete states. -/
theorem compete_message_block_cases_w :
    (compete_message_block 10 4 2
        { chosen_mb := sample_mb 200, self_node := sample_node 300,
          self_dispatcher := ⟨-1, 1⟩ } (sample_mb 100) ⟨0, 0⟩
      = ((try_add_sgsh_edge 10 4 2
            (try_add_sgsh_node 10 4
              { chosen_mb := sample_mb 100, self_node := sample_node 300,
                self_dispatcher := ⟨-1, 1⟩ }).1 ⟨0, 0⟩).1, true, true))
    ∧ (compete_message_block 10 4 2
        { chosen_mb := sample_mb 100, self_node := sample_node 300,
          self_dispatcher := ⟨-1, 1⟩ } (sample_mb 200) ⟨0, 0⟩
      = ({ chosen_mb := sample_mb 100, self_node := sample_node 300,
           self_dispatcher := ⟨-1, 1⟩ }, false, false))
    ∧ (max (sample_mb 100).serial_no (sample_mb 100).serial_no
        ≤ (compete_message_block 10 4 2
            { chosen_mb := sample_mb 100, self_node := sample_node 300,
              self_dispatcher := ⟨-1, 1⟩ } (sample_mb 100) ⟨0, 0⟩).1.chosen_mb.serial_no) := by
  refine ⟨?_, ?_, ?_⟩
  · exact ((compete_message_block_cases 10 4 2
      { chosen_mb := sample_mb 200, self_node := sample_node 300,
        self_dispatcher := ⟨-1, 1⟩ } (sample_mb 100) ⟨0, 0⟩).1 (by decide)).1
  · exact (compete_message_block_cases 10 4 2
      { chosen_mb := sample_mb 100, self_node := sample_node 300,
        self_dispatcher := ⟨-1, 1⟩ } (sample_mb 200) ⟨0, 0⟩).2.1 (by decide)
  · exact ((compete_message_block_cases 10 4 2
      { chosen_mb := sample_mb 100, self_node := sample_node 300,
        self_dispatcher := ⟨-1, 1⟩ } (sample_mb 100) ⟨0, 0⟩).2.2 (by decide)).2

/-- C2 counterexample: with the serial bumped in rounds 1 and 2 but not
in round 3, `check_negotiation_round` already ends the negotiation — only
one round ever returned without a bump, not three consecutive ones.
Conversely, with a bump in round 3 only, the counter passes 3 and the
negotiation is never ended by this check, although rounds 4–6 are three
consecutive bump-free rounds. -/
theorem check_negotiation_round_cex :
    ((run_rounds 100 0 (sample_mb 100) [true, true, false]).2.state_flag
        = PROT_STATE_NEGOTIATION_END
      ∧ [true, true, false].count false = 1)
    ∧ (run_rounds 100 0 (sample_mb 100)
          [false, false, true, false, false, false]).2.state_flag
        ≠ PROT_STATE_NEGOTIATION_END := by
  refine ⟨⟨?_, ?_⟩, ?_⟩ <;> decide

/-- C2 (amended): the initiator increments the round counter on every
return of the MB; the negotiation is ended (with a serial bump) exactly
on the arrival that makes the counter 3 while reporting no serial bump —
the counter is never reset, so the end depends only on the third round's
flag. -/
theorem check_negotiation_round_end (mb : sgsh_negotiation) (us : List Bool)
    (hstate : mb.state_flag = PROT_STATE_NEGOTIATION) :
    ((run_rounds mb.initiator_pid 0 mb us).2.state_flag
        = PROT_STATE_NEGOTIATION_END
      ↔ 3 ≤ us.length ∧ us.getD 2 true = false)
    ∧ check_negotiation_round mb.initiator_pid mb 2 false
        = (3, { mb with state_flag := PROT_STATE_NEGOTIATION_END,
                        serial_no := mb.serial_no + 1 }) := by
  constructor
  · rw [run_rounds_end_iff us 0 mb, hstate]
    have hne : PROT_STATE_NEGOTIATION ≠ PROT_STATE_NEGOTIATION_END := by decide
    constructor
    · rintro (habs | ⟨i, hi, hri, hui⟩)
      · exact absurd habs hne
      · have hi2 : i = 2 := by omega
        subst hi2
        exact ⟨by omega, hui⟩
    · rintro ⟨hlen, hget⟩
      exact Or.inr ⟨2, by omega, by omega, hget⟩
  · simp [check_negotiation_round]

/-- C2 witness: `check_negotiation_round_end` at a concrete MB and
flag sequence. -/
theorem check_negotiation_round_end_w :
    ((run_rounds (sample_mb 100).initiator_pid 0 (sample_mb 100)
          [false, false, false]).2.state_flag
        = PROT_STATE_NEGOTIATION_END
      ↔ 3 ≤ ([false, false, false] : List Bool).length
        ∧ ([false, false, false] : List Bool).getD 2 true = false)
    ∧ check_negotiation_round (sample_mb 100).initiator_pid (sample_mb 100) 2 false
        = (3, { sample_mb 100 with
                state_flag := PROT_STATE_NEGOTIATION_END,
                serial_no := (sample_mb 100).serial_no + 1 }) :=
  check_negotiation_round_end (sample_mb 100) [false, false, false] rfl

/-- C5: the direction of the edge `fill_sgsh_edge` builds follows
`origin`: an MB dispatched on the sender's input side makes the
dispatcher the destination (`⟨self, origin⟩`), and one dispatched on the
output side makes it the source (`⟨origin, self⟩`).  But the validity
check on `origin.index` is broken: here the MB has one node (valid index
0 only) and `origin.index = 2`, yet `fill_sgsh_edge` reports
`OP_SUCCESS` instead of the error the claim requires, and builds an edge
to the nonexistent node 2. -/
theorem fill_sgsh_edge_bug :
    ((fill_sgsh_edge
        { chosen_mb := { sample_mb 100 with
                           node_array := [sample_node 100],
                           origin := ⟨0, STDIN_FILENO⟩ },
          self_node := sample_node 300, self_dispatcher := ⟨1, 1⟩ }
        ⟨-7, -7⟩)
      = (⟨1, 0⟩, OP_SUCCESS))
    ∧ ((fill_sgsh_edge
        { chosen_mb := { sample_mb 100 with
                           node_array := [sample_node 100],
                           origin := ⟨0, STDOUT_FILENO⟩ },
          self_node := sample_node 300, self_dispatcher := ⟨1, 0⟩ }
        ⟨-7, -7⟩)
      = (⟨0, 1⟩, OP_SUCCESS))
    ∧ ((fill_sgsh_edge
        { chosen_mb := { sample_mb 100 with
                           node_array := [sample_node 100],
                           origin := ⟨2, STDIN_FILENO⟩ },
          self_node := sample_node 300, self_dispatcher := ⟨1, 1⟩ }
        ⟨-7, -7⟩).2
      = OP_SUCCESS) := by
  refine ⟨?_, ?_, ?_⟩ <;> decide

/-- C6: the layout equation fails right after `construct_message_block`
whenever the malloc'd bytes under the uninitialized `n_edges` field are
nonzero (here: one garbage edge, with header/node/edge sizes 96/120/8),
while with `n_edges` zeroed — the clear intent — the invariant holds
after creation and is preserved by both `try_add_sgsh_node` and
`try_add_sgsh_edge`, for every choice of the three sizes. -/
theorem construct_message_block_layout_bug :
    ¬ mb_layout 96 120 8 (construct_message_block 96 100 [⟨0, 0⟩] 0)
    ∧ (∀ (h n e : Nat) (pid : Int) (goff : Nat),
        mb_layout h n e (construct_message_block h pid [] goff))
    ∧ (∀ (h n e : Nat) (s : NegotiationState) (g : sgsh_edge),
        mb_layout h n e s.chosen_mb →
          mb_layout h n e ((try_add_sgsh_node h n s).1).chosen_mb
          ∧ mb_layout h n e ((try_add_sgsh_edge h n e s g).1).chosen_mb) := by
  refine ⟨by decide, ?_, ?_⟩
  · intro h n e pid goff
    simp [mb_layout, construct_message_block]
  · intro h n e s g hinv
    obtain ⟨htot, hnode, hedge⟩ := hinv
    constructor
    · simp only [try_add_sgsh_node]
      split
      · refine ⟨?_, ?_, ?_⟩
        · dsimp only [realloc_mb_new_node]
          rw [List.length_append, List.length_cons, List.length_nil, htot]
          ring
        · intro hne
          rfl
        · intro hne
          dsimp only [realloc_mb_new_node]
          rw [List.length_append, List.length_cons, List.length_nil]
      · exact ⟨htot, hnode, hedge⟩
    · simp only [try_add_sgsh_edge]
      split
      · split
        · refine ⟨?_, ?_, ?_⟩
          · dsimp only [realloc_mb_new_edge]
            rw [List.length_append, List.length_cons, List.length_nil, htot]
            ring
          · intro hne
            rfl
          · intro hne
            rfl
        · exact ⟨htot, hnode, hedge⟩
      · exact ⟨htot, hnode, hedge⟩

/-- C6 witness: the preservation part of
`construct_message_block_layout_bug` applied to a concrete in-layout
state, plus the creation part at concrete sizes. -/
theorem construct_message_block_layout_bug_w :
    mb_layout 96 120 8 (construct_message_block 96 100 [] 0)
    ∧ mb_layout 96 120 8
        ((try_add_sgsh_node 96 120
          { chosen_mb := construct_message_block 96 100 [] 0,
            self_node := sample_node 100,
            self_dispatcher := ⟨-1, 1⟩ }).1).chosen_mb :=
  ⟨construct_message_block_layout_bug.2.1 96 120 8 100 0,
   (construct_message_block_layout_bug.2.2 96 120 8
      { chosen_mb := construct_message_block 96 100 [] 0,
        self_node := sample_node 100,
        self_dispatcher := ⟨-1, 1⟩ } ⟨0, 0⟩
      (construct_message_block_layout_bug.2.1 96 120 8 100 0)).1⟩

/-- C8: the claimed contract never holds.  First conjunct: at every
reachable call `sgsh_negotiate` passes `fresh_mb = NULL` (set at its
declaration and never assigned), and `try_read_message_block` then
faults in `alloc_copy_mb`'s `bytes_read != mb->total_size` check — there
is no successful call at all.  Second conjunct: even for a hypothetical
non-`NULL` incoming pointer `some m` whose header matches `bytes_read`
(and fits the buffer), the call reports `OP_SUCCESS` yet the caller's
`fresh_mb` still holds the old `some m`, while the allocated copy of the
read bytes is only the final value of the callee's by-value parameter —
so the caller's `fresh_mb` never comes to refer to the newly read
block. -/
theorem try_read_message_block_bug :
    (∀ (buf : sgsh_negotiation) (bytes_read buf_size : Nat),
      try_read_message_block none buf bytes_read buf_size = none)
    ∧ (∀ (m buf : sgsh_negotiation) (bytes_read buf_size : Nat),
        bytes_read = m.total_size → bytes_read ≤ buf_size →
        try_read_message_block (some m) buf bytes_read buf_size
            = some (OP_SUCCESS, some m)
        ∧ alloc_copy_mb (some m) buf bytes_read buf_size
            = some (OP_SUCCESS, some buf)) := by
  constructor
  · intro buf bytes_read buf_size
    rfl
  · intro m buf bytes_read buf_size hsz hfit
    have hac : alloc_copy_mb (some m) buf bytes_read buf_size
        = some (OP_SUCCESS, some buf) := by
      simp only [alloc_copy_mb]
      rw [if_neg (by omega), if_neg (by omega)]
    refine ⟨?_, hac⟩
    simp only [try_read_message_block, hac]
    rw [if_neg (by decide : ¬(OP_SUCCESS = OP_ERROR))]

/-- C8 witness: `try_read_message_block_bug` at a hypothetical non-`NULL`
caller pointer holding a 64-byte header, a 64-byte read and a page-sized
buffer: the call reports success and the caller's variable keeps the old
block. -/
theorem try_read_message_block_bug_w :
    try_read_message_block (some { sample_mb 100 with total_size := 64 })
        (sample_mb 101) 64 4096
      = some (OP_SUCCESS, some { sample_mb 100 with total_size := 64 }) :=
  (try_read_message_block_bug.2 { sample_mb 100 with total_size := 64 }
    (sample_mb 101) 64 4096 (by decide) (by decide)).1

/-- C10: when the chosen MB's `total_size` exceeds the transmit buffer,
`write_mb` returns `OP_ERROR` with the state untouched (no
`set_dispatcher`, no copy, no write — the block image component is
`none`), and the transmitting step of the `sgsh_negotiate` loop
propagates the failure as an immediate `OP_ERROR` return. -/
theorem write_mb_oversize (s : NegotiationState) (buf_size : Nat)
    (r : Nat) (u : Bool)
    (hbig : s.chosen_mb.total_size > buf_size) :
    write_mb s buf_size = (OP_ERROR, s, none)
    ∧ negotiation_transmit_phase s r u true buf_size = Except.error OP_ERROR := by
  constructor
  · simp only [write_mb]
    rw [if_pos hbig]
  · have hsize : (check_negotiation_round s.self_node.pid s.chosen_mb r u).2.total_size
        = s.chosen_mb.total_size := by
      simp only [check_negotiation_round]
      split
      · split <;> simp
      · rfl
    have hcond : buf_size < (check_negotiation_round s.self_node.pid
        s.chosen_mb r u).2.total_size := by
      rw [hsize]
      exact hbig
    simp [negotiation_transmit_phase, write_mb, hcond]

/-- C10 witness: `write_mb_oversize` for a 5000-byte block and a
4096-byte buffer. -/
theorem write_mb_oversize_w :
    write_mb
        { chosen_mb := { sample_mb 100 with total_size := 5000 },
          self_node := sample_node 100, self_dispatcher := ⟨0, 1⟩ } 4096
      = (OP_ERROR,
         { chosen_mb := { sample_mb 100 with total_size := 5000 },
           self_node := sample_node 100, self_dispatcher := ⟨0, 1⟩ }, none)
    ∧ negotiation_transmit_phase
        { chosen_mb := { sample_mb 100 with total_size := 5000 },
          self_node := sample_node 100, self_dispatcher := ⟨0, 1⟩ }
        0 true true 4096
      = Except.error OP_ERROR :=
  write_mb_oversize
    { chosen_mb := { sample_mb 100 with total_size := 5000 },
      self_node := sample_node 100, self_dispatcher := ⟨0, 1⟩ }
    4096 0 true (by decide)

end Negotiate

namespace Writeval

/-! ## Claim theorems for the value store: command dispatch and counters -/

/-- C7: `read_command` dispatches the single command byte as the claim
says: `'L'` (76) moves the client to `s_send_last` — whose socket the
main loop only marks writable once `reached_eof` holds; `'C'` (67) moves
it to `s_send_current` — marked writable exactly when `have_record`
holds; `'Q'` (81) unlinks the socket path and exits the server with
status 0; every other byte is a fatal protocol error exiting with
status 1. -/
theorem read_command_cases :
    read_command_dispatch 76 = .set_state .s_send_last
    ∧ read_command_dispatch 67 = .set_state .s_send_current
    ∧ read_command_dispatch 81 = .server_exit true 0
    ∧ (∀ cmd : Nat, cmd ≠ 76 → cmd ≠ 81 → cmd ≠ 67 →
        read_command_dispatch cmd = .server_exit false 1)
    ∧ (∀ reached_eof have_record : Bool,
        client_wants_write .s_send_last reached_eof have_record = reached_eof
        ∧ client_wants_write .s_send_current reached_eof have_record = have_record) := by
  refine ⟨rfl, rfl, rfl, ?_, ?_⟩
  · intro cmd h76 h81 h67
    simp [read_command_dispatch, h76, h81, h67]
  · intro a b
    exact ⟨rfl, rfl⟩

/-- C7 witness: `read_command_cases` at the unknown byte 82 (`'R'`) and
concrete stream flags. -/
theorem read_command_cases_w :
    read_command_dispatch 82 = .server_exit false 1
    ∧ client_wants_write .s_send_last false true = false :=
  ⟨read_command_cases.2.2.2.1 82 (by decide) (by decide) (by decide),
   (read_command_cases.2.2.2.2 false true).1⟩

/-- C9 counterexample: in record-separator mode (`rl = 0`)
`set_buffer_counters` never writes `byte_count`, so the appended buffer
keeps its uninitialized value — here 3 — while its predecessor holds 5,
and the claimed `byte_count` monotonicity fails. -/
theorem set_buffer_counters_cex :
    (set_buffer_counters 0 10 (some ⟨[97, 98], 0, 5⟩) ⟨[99, 10], 0, 3⟩).byte_count = 3
    ∧ (⟨[97, 98], 0, 5⟩ : counted_buffer).byte_count = 5
    ∧ ¬ ((⟨[97, 98], 0, 5⟩ : counted_buffer).byte_count
          ≤ (set_buffer_counters 0 10 (some ⟨[97, 98], 0, 5⟩) ⟨[99, 10], 0, 3⟩).byte_count) := by
  refine ⟨?_, ?_, ?_⟩ <;> decide

/-- C9 (amended): after `set_buffer_counters` on a newly appended buffer,
`record_count` never decreases across the new adjacent pair in
record-separator mode; in fixed-length mode both `byte_count` and — given
that the predecessor's counters were themselves set by
`set_buffer_counters` (so `record_count = byte_count / rl`) on a
non-negative byte count — `record_count` never decrease.  `byte_count` is
not written at all in record-separator mode. -/
theorem set_buffer_counters_monotone (rl rs : Nat) (prev b : counted_buffer) :
    (rl = 0 →
      prev.record_count ≤ (set_buffer_counters rl rs (some prev) b).record_count)
    ∧ (0 < rl →
      prev.byte_count ≤ (set_buffer_counters rl rs (some prev) b).byte_count
      ∧ (prev.record_count = prev.byte_count.tdiv (rl : Int) →
          0 ≤ prev.byte_count →
          prev.record_count ≤ (set_buffer_counters rl rs (some prev) b).record_count)) := by
  constructor
  · intro h0
    subst h0
    simp only [set_buffer_counters]
    rw [if_pos trivial]
    dsimp only
    omega
  · intro hpos
    have hne : rl ≠ 0 := by omega
    simp only [set_buffer_counters, if_neg hne]
    constructor
    · have hlen : (0 : Int) ≤ (b.data.length : Int) := by positivity
      omega
    · intro hrc hbc
      rw [hrc]
      have h1 : prev.byte_count.tdiv (rl : Int) = prev.byte_count / (rl : Int) :=
        Int.tdiv_eq_ediv hbc (by positivity)
      have h2 : (prev.byte_count + (b.data.length : Int)).tdiv (rl : Int)
          = (prev.byte_count + (b.data.length : Int)) / (rl : Int) :=
        Int.tdiv_eq_ediv (by positivity) (by positivity)
      rw [h1, h2]
      exact Int.ediv_le_ediv (by exact_mod_cast hpos) (by omega)

/-- C9 witness: `set_buffer_counters_monotone` in both modes at concrete
buffers. -/
theorem set_buffer_counters_monotone_w :
    ((⟨[97, 98], 0, 2⟩ : counted_buffer).record_count
      ≤ (set_buffer_counters 0 10 (some ⟨[97, 98], 0, 2⟩) ⟨[99, 10], 0, 0⟩).record_count)
    ∧ ((⟨[97, 98], 0, 2⟩ : counted_buffer).byte_count
      ≤ (set_buffer_counters 4 10 (some ⟨[97, 98], 0, 2⟩) ⟨[99, 10, 1, 1], 0, 0⟩).byte_count)
    ∧ ((⟨[97, 98], 0, 2⟩ : counted_buffer).record_count
      ≤ (set_buffer_counters 4 10 (some ⟨[97, 98], 0, 2⟩) ⟨[99, 10, 1, 1], 0, 0⟩).record_count) :=
  ⟨(set_buffer_counters_monotone 0 10 ⟨[97, 98], 0, 2⟩ ⟨[99, 10], 0, 0⟩).1 rfl,
   ((set_buffer_counters_monotone 4 10 ⟨[97, 98], 0, 2⟩ ⟨[99, 10, 1, 1], 0, 0⟩).2
      (by decide)).1,
   ((set_buffer_counters_monotone 4 10 ⟨[97, 98], 0, 2⟩ ⟨[99, 10, 1, 1], 0, 0⟩).2
      (by decide)).2 (by decide) (by decide)⟩

/-! ## Helper lemmas for buffer-chain trimming -/

/-- `free_unused_buffers` succeeds when some stop buffer is in the chain,
and then returns exactly the suffix from the first stop buffer on. -/
theorem free_unused_buffers_some (chain : List Nat) (crb : Nat)
    (obw : Option Nat)
    (hx : ∃ b ∈ chain, stop_buffer crb obw b = true) :
    free_unused_buffers chain crb obw
      = some (chain.dropWhile (fun b => !(stop_buffer crb obw b))) := by
  induction chain with
  | nil =>
      rcases hx with ⟨b, hb, _⟩
      cases hb
  | cons c t ih =>
      by_cases hc : c = crb ∨ some c = obw
      · have hstop : stop_buffer crb obw c = true := by
          rcases hc with hc | hc <;> simp [stop_buffer, hc]
        simp [free_unused_buffers, hc, List.dropWhile_cons, hstop]
      · have hstop : stop_buffer crb obw c = false := by
          rw [not_or] at hc
          simp [stop_buffer, hc.1, hc.2]
        have hx2 : ∃ b ∈ t, stop_buffer crb obw b = true := by
          rcases hx with ⟨b, hb, hsb⟩
          rcases List.mem_cons.mp hb with hbc | hbt
          · rw [hbc] at hsb
            rw [hsb] at hstop
            cases hstop
          · exact ⟨b, hbt, hsb⟩
        simp [free_unused_buffers, hc, List.dropWhile_cons, hstop, ih hx2]

/-- Everything at or after (in chain order) a stop buffer survives the
trim. -/
theorem mem_dropWhile_stop (chain : List Nat) (crb : Nat) (obw : Option Nat)
    (s x : Nat) (hs : s ∈ chain) (hstop : stop_buffer crb obw s = true)
    (hx : x ∈ chain)
    (hpos : chain_pos chain s ≤ chain_pos chain x) :
    x ∈ chain.dropWhile (fun b => !(stop_buffer crb obw b)) := by
  induction chain with
  | nil => cases hx
  | cons c t ih =>
      by_cases hc : stop_buffer crb obw c = true
      · have hpc : (!stop_buffer crb obw c) = false := by simp [hc]
        rw [List.dropWhile_cons, hpc]
        simpa using hx
      · have hcs : c ≠ s := fun hcs => hc (hcs ▸ hstop)
        have hs2 : s ∈ t := by
          rcases List.mem_cons.mp hs with hh | hh
          · exact absurd hh.symm hcs
          · exact hh
        have hcx : c ≠ x := by
          intro hcx
          have h1 : chain_pos (c :: t) x = 0 := by simp [chain_pos, hcx]
          have h2 : chain_pos (c :: t) s = chain_pos t s + 1 := by
            simp [chain_pos, Ne.symm hcs, hcs]
          omega
        have hx2 : x ∈ t := by
          rcases List.mem_cons.mp hx with hh | hh
          · exact absurd hh.symm hcx
          · exact hh
        have hpos2 : chain_pos t s ≤ chain_pos t x := by
          have h2 : chain_pos (c :: t) s = chain_pos t s + 1 := by
            simp [chain_pos, hcs]
          have h3 : chain_pos (c :: t) x = chain_pos t x + 1 := by
            simp [chain_pos, hcx]
          omega
        have hpc : (!stop_buffer crb obw c) = true := by simp [hc]
        rw [List.dropWhile_cons, hpc]
        simp only [if_pos rfl]
        exact ih hs2 hx2 hpos2

/-- `oldest_buffer` on two members of the chain returns one of them, a
member sitting no later than either. -/
theorem oldest_buffer_le (chain : List Nat) (a b : Nat)
    (ha : a ∈ chain) (hb : b ∈ chain) :
    ∃ r, oldest_buffer chain (some a) (some b) = some r
      ∧ (r = a ∨ r = b) ∧ r ∈ chain
      ∧ chain_pos chain r ≤ chain_pos chain a
      ∧ chain_pos chain r ≤ chain_pos chain b := by
  induction chain with
  | nil => cases ha
  | cons c t ih =>
      by_cases hc : c = a ∨ c = b
      · refine ⟨c, ?_, hc, List.mem_cons_self c t, ?_, ?_⟩
        · have hpc : (c == a || c == b) = true := by
            rcases hc with hc | hc <;> simp [hc]
          simp [oldest_buffer, List.find?_cons, hpc]
        · have h0 : chain_pos (c :: t) c = 0 := by simp [chain_pos]
          omega
        · have h0 : chain_pos (c :: t) c = 0 := by simp [chain_pos]
          omega
      · rw [not_or] at hc
        have ha2 : a ∈ t := by
          rcases List.mem_cons.mp ha with hh | hh
          · exact absurd hh.symm hc.1
          · exact hh
        have hb2 : b ∈ t := by
          rcases List.mem_cons.mp hb with hh | hh
          · exact absurd hh.symm hc.2
          · exact hh
        obtain ⟨r, hfind, hrab, hrmem, hra, hrb⟩ := ih ha2 hb2
        have hpc : (c == a || c == b) = false := by simp [hc.1, hc.2]
        refine ⟨r, ?_, hrab, List.mem_cons_of_mem c hrmem, ?_, ?_⟩
        · simp only [oldest_buffer, List.find?_cons, hpc] at hfind ⊢
          exact hfind
        · have hcr : c ≠ r := by
            rcases hrab with hh | hh
            · rw [hh]
              exact hc.1
            · rw [hh]
              exact hc.2
          have h1 : chain_pos (c :: t) r = chain_pos t r + 1 := by
            simp [chain_pos, hcr]
          have h2 : chain_pos (c :: t) a = chain_pos t a + 1 := by
            simp [chain_pos, hc.1]
          omega
        · have hcr : c ≠ r := by
            rcases hrab with hh | hh
            · rw [hh]
              exact hc.1
            · rw [hh]
              exact hc.2
          have h1 : chain_pos (c :: t) r = chain_pos t r + 1 := by
            simp [chain_pos, hcr]
          have h2 : chain_pos (c :: t) b = chain_pos t b + 1 := by
            simp [chain_pos, hc.2]
          omega

/-- `oldest_buffer` with an optional first argument: the result is a
member no later than the second buffer, and no later than whatever the
first pointer held. -/
theorem oldest_buffer_le_opt (chain : List Nat) (acc : Option Nat)
    (wb : Nat) (hacc : ∀ a, acc = some a → a ∈ chain) (hwb : wb ∈ chain) :
    ∃ r, oldest_buffer chain acc (some wb) = some r ∧ r ∈ chain
      ∧ chain_pos chain r ≤ chain_pos chain wb
      ∧ (∀ a, acc = some a → chain_pos chain r ≤ chain_pos chain a) := by
  cases acc with
  | none =>
      refine ⟨wb, rfl, hwb, le_refl _, ?_⟩
      intro a ha
      cases ha
  | some a0 =>
      obtain ⟨r, hr, hrab, hrmem, hra, hrwb⟩ :=
        oldest_buffer_le chain a0 wb (hacc a0 rfl) hwb
      refine ⟨r, hr, hrmem, hrwb, ?_⟩
      intro a ha
      cases ha
      exact hra

/-- The fold inside `update_oldest_buffer`, generalized over the
accumulator: the result is in the chain, never later than the incoming
accumulator, and never later than the `write_begin` buffer of any client
in `s_sending_response`. -/
theorem update_oldest_buffer_fold (chain : List Nat) :
    ∀ (clients : List chain_client) (acc : Option Nat),
      (∀ a, acc = some a → a ∈ chain) →
      (∀ c ∈ clients, c.state = .s_sending_response → c.write_begin_b ∈ chain) →
      (∀ o, clients.foldl
          (fun acc c =>
            if c.state = .s_sending_response
            then oldest_buffer chain acc (some c.write_begin_b) else acc)
          acc = some o → o ∈ chain)
      ∧ (∀ a, acc = some a →
          ∃ o, clients.foldl
            (fun acc c =>
              if c.state = .s_sending_response
              then oldest_buffer chain acc (some c.write_begin_b) else acc)
            acc = some o ∧ chain_pos chain o ≤ chain_pos chain a)
      ∧ (∀ c ∈ clients, c.state = .s_sending_response →
          ∃ o, clients.foldl
            (fun acc c =>
              if c.state = .s_sending_response
              then oldest_buffer chain acc (some c.write_begin_b) else acc)
            acc = some o ∧ chain_pos chain o ≤ chain_pos chain c.write_begin_b) := by
  intro clients
  induction clients with
  | nil =>
      intro acc hacc hmem
      refine ⟨hacc, ?_, ?_⟩
      · intro a ha
        exact ⟨a, ha, le_refl _⟩
      · intro c hc
        cases hc
  | cons c cs ih =>
      intro acc hacc hmem
      by_cases hsend : c.state = .s_sending_response
      · have hwb : c.write_begin_b ∈ chain :=
          hmem c (List.mem_cons_self c cs) hsend
        have hmem2 : ∀ d ∈ cs, d.state = .s_sending_response →
            d.write_begin_b ∈ chain :=
          fun d hd => hmem d (List.mem_cons_of_mem c hd)
        have hfold : (c :: cs).foldl
            (fun acc c =>
              if c.state = .s_sending_response
              then oldest_buffer chain acc (some c.write_begin_b) else acc)
            acc = cs.foldl
              (fun acc c =>
                if c.state = .s_sending_response
                then oldest_buffer chain acc (some c.write_begin_b) else acc)
              (oldest_buffer chain acc (some c.write_begin_b)) := by
          simp [List.foldl_cons, hsend]
        obtain ⟨r, hr, hrmem, hrwb, hrout⟩ :=
          oldest_buffer_le_opt chain acc c.write_begin_b hacc hwb
        have ih2 := ih (oldest_buffer chain acc (some c.write_begin_b))
          (by
            intro a ha
            rw [hr] at ha
            cases ha
            exact hrmem) hmem2
        refine ⟨?_, ?_, ?_⟩
        · intro o ho
          rw [hfold] at ho
          exact ih2.1 o ho
        · intro a ha
          obtain ⟨o, ho, hole⟩ := ih2.2.1 r hr
          exact ⟨o, by rw [hfold]; exact ho, le_trans hole (hrout a ha)⟩
        · intro d hd hds
          rcases List.mem_cons.mp hd with hdc | hdcs
          · obtain ⟨o, ho, hole⟩ := ih2.2.1 r hr
            rw [hdc]
            exact ⟨o, by rw [hfold]; exact ho, le_trans hole hrwb⟩
          · obtain ⟨o, ho, hole⟩ := ih2.2.2 d hdcs hds
            exact ⟨o, by rw [hfold]; exact ho, hole⟩
      · have hfold : (c :: cs).foldl
            (fun acc c =>
              if c.state = .s_sending_response
              then oldest_buffer chain acc (some c.write_begin_b) else acc)
            acc = cs.foldl
              (fun acc c =>
                if c.state = .s_sending_response
                then oldest_buffer chain acc (some c.write_begin_b) else acc)
              acc := by
          simp [List.foldl_cons, hsend]
        have hmem2 : ∀ d ∈ cs, d.state = .s_sending_response →
            d.write_begin_b ∈ chain :=
          fun d hd => hmem d (List.mem_cons_of_mem c hd)
        have ih2 := ih acc hacc hmem2
        refine ⟨?_, ?_, ?_⟩
        · intro o ho
          rw [hfold] at ho
          exact ih2.1 o ho
        · intro a ha
          obtain ⟨o, ho, hole⟩ := ih2.2.1 a ha
          exact ⟨o, by rw [hfold]; exact ho, hole⟩
        · intro d hd hds
          rcases List.mem_cons.mp hd with hdc | hdcs
          · rw [hdc] at hds
            exact absurd hds hsend
          · obtain ⟨o, ho, hole⟩ := ih2.2.2 d hdcs hds
            exact ⟨o, by rw [hfold]; exact ho, hole⟩

end Writeval

namespace Writeval

/-- C4: `free_unused_buffers` frees buffers from the head strictly up to
the first (in chain order) of `current_record_begin.b` and
`oldest_buffer_being_written` as recomputed by `update_oldest_buffer`;
that buffer becomes the new head (the suffix is exactly the `dropWhile`
of the non-stop prefix).  Consequently `current_record_begin.b`,
`current_record_end.b` and both write-cursor buffers of every client in
`s_sending_response` remain reachable from the new head, hence are not
freed. -/
theorem free_unused_buffers_trim (chain : List Nat) (crb cre : Nat)
    (clients : List chain_client)
    (hcrb : crb ∈ chain) (hcre : cre ∈ chain)
    (horder : chain_pos chain crb ≤ chain_pos chain cre)
    (hcl : ∀ c ∈ clients, c.state = .s_sending_response →
        c.write_begin_b ∈ chain ∧ c.write_end_b ∈ chain
        ∧ chain_pos chain c.write_begin_b ≤ chain_pos chain c.write_end_b) :
    free_unused_buffers chain crb (update_oldest_buffer chain clients)
        = some (chain.dropWhile
            (fun b => !(stop_buffer crb (update_oldest_buffer chain clients) b)))
    ∧ crb ∈ chain.dropWhile
        (fun b => !(stop_buffer crb (update_oldest_buffer chain clients) b))
    ∧ cre ∈ chain.dropWhile
        (fun b => !(stop_buffer crb (update_oldest_buffer chain clients) b))
    ∧ ∀ c ∈ clients, c.state = .s_sending_response →
        c.write_begin_b ∈ chain.dropWhile
          (fun b => !(stop_buffer crb (update_oldest_buffer chain clients) b))
        ∧ c.write_end_b ∈ chain.dropWhile
          (fun b => !(stop_buffer crb (update_oldest_buffer chain clients) b)) := by
  have hmemwb : ∀ c ∈ clients, c.state = .s_sending_response →
      c.write_begin_b ∈ chain := fun c hc hs => (hcl c hc hs).1
  have hfold := update_oldest_buffer_fold chain clients none
    (by intro a ha; cases ha) hmemwb
  have hstopcrb : stop_buffer crb (update_oldest_buffer chain clients) crb
      = true := by simp [stop_buffer]
  refine ⟨?_, ?_, ?_, ?_⟩
  · exact free_unused_buffers_some chain crb _ ⟨crb, hcrb, hstopcrb⟩
  · exact mem_dropWhile_stop chain crb _ crb crb hcrb hstopcrb hcrb (le_refl _)
  · exact mem_dropWhile_stop chain crb _ crb cre hcrb hstopcrb hcre horder
  · intro c hc hs
    obtain ⟨o, ho, hole⟩ := hfold.2.2 c hc hs
    have homem : o ∈ chain := hfold.1 o ho
    have hstopo : stop_buffer crb (update_oldest_buffer chain clients) o
        = true := by
      have ho2 : update_oldest_buffer chain clients = some o := ho
      simp [stop_buffer, ho2]
    obtain ⟨hwb, hwe, hbe⟩ := hcl c hc hs
    exact ⟨mem_dropWhile_stop chain crb _ o c.write_begin_b homem hstopo hwb hole,
           mem_dropWhile_stop chain crb _ o c.write_end_b homem hstopo hwe
             (le_trans hole hbe)⟩

/-- C4 witness: `free_unused_buffers_trim` on the chain
`[10, 20, 30, 40]` with the current record starting at buffer 30 and one
client sending from buffer 20: the head buffer 10 is freed, 20 becomes
the new head, and every referenced buffer survives. -/
theorem free_unused_buffers_trim_w :
    free_unused_buffers [10, 20, 30, 40] 30
        (update_oldest_buffer [10, 20, 30, 40]
          [⟨.s_sending_response, 20, 30⟩])
        = some (([10, 20, 30, 40] : List Nat).dropWhile
            (fun b => !(stop_buffer 30
              (update_oldest_buffer [10, 20, 30, 40]
                [⟨.s_sending_response, 20, 30⟩]) b)))
    ∧ 30 ∈ ([10, 20, 30, 40] : List Nat).dropWhile
        (fun b => !(stop_buffer 30
          (update_oldest_buffer [10, 20, 30, 40]
            [⟨.s_sending_response, 20, 30⟩]) b))
    ∧ 40 ∈ ([10, 20, 30, 40] : List Nat).dropWhile
        (fun b => !(stop_buffer 30
          (update_oldest_buffer [10, 20, 30, 40]
            [⟨.s_sending_response, 20, 30⟩]) b))
    ∧ ∀ c ∈ ([⟨.s_sending_response, 20, 30⟩] : List chain_client),
        c.state = .s_sending_response →
        c.write_begin_b ∈ ([10, 20, 30, 40] : List Nat).dropWhile
          (fun b => !(stop_buffer 30
            (update_oldest_buffer [10, 20, 30, 40]
              [⟨.s_sending_response, 20, 30⟩]) b))
        ∧ c.write_end_b ∈ ([10, 20, 30, 40] : List Nat).dropWhile
          (fun b => !(stop_buffer 30
            (update_oldest_buffer [10, 20, 30, 40]
              [⟨.s_sending_response, 20, 30⟩]) b)) :=
  free_unused_buffers_trim [10, 20, 30, 40] 30 40
    [⟨.s_sending_response, 20, 30⟩]
    (by decide) (by decide) (by decide) (by decide)

/-! ## Helper lemmas for the content-length header digits -/

/-- `dec_le` never produces more digits than its fuel. -/
theorem dec_le_length_le : ∀ fuel n, (dec_le fuel n).length ≤ fuel := by
  intro fuel
  induction fuel with
  | zero => intro n; simp [dec_le]
  | succ f ih =>
      intro n
      by_cases hn : n = 0
      · simp [dec_le, hn]
      · simp only [dec_le, if_neg hn, List.length_cons]
        exact Nat.succ_le_succ (ih (n / 10))

/-- Every digit `dec_le` produces is below 10. -/
theorem dec_le_digit_lt : ∀ fuel n, ∀ d ∈ dec_le fuel n, d < 10 := by
  intro fuel
  induction fuel with
  | zero => intro n d hd; simp [dec_le] at hd
  | succ f ih =>
      intro n d hd
      by_cases hn : n = 0
      · simp [dec_le, hn] at hd
      · simp only [dec_le, if_neg hn, List.mem_cons] at hd
        rcases hd with hd | hd
        · rw [hd]; exact Nat.mod_lt n (by omega)
        · exact ih (n / 10) d hd

/-- With enough fuel, `dec_le` represents its input. -/
theorem le_value_dec_le : ∀ fuel n, n < 10 ^ fuel →
    le_value (dec_le fuel n) = n := by
  intro fuel
  induction fuel with
  | zero =>
      intro n hn
      have : n = 0 := by simpa using hn
      simp [dec_le, le_value, this]
  | succ f ih =>
      intro n hn
      by_cases hz : n = 0
      · simp [dec_le, hz, le_value]
      · have hdiv : n / 10 < 10 ^ f := by
          rw [Nat.div_lt_iff_lt_mul (by omega)]
          calc n < 10 ^ (f + 1) := hn
          _ = 10 ^ f * 10 := by rw [pow_succ]
        simp only [dec_le, if_neg hz, le_value, ih (n / 10) hdiv]
        omega

/-- The content-length header is always exactly
`CONTENT_LENGTH_DIGITS` bytes. -/
theorem content_length_header_length (n : Nat) :
    (content_length_header n).length = CONTENT_LENGTH_DIGITS := by
  have h := dec_le_length_le CONTENT_LENGTH_DIGITS n
  simp only [content_length_header, List.length_append, List.length_replicate,
    List.length_map, List.length_reverse]
  omega

/-- Every byte of the content-length header is an ASCII digit. -/
theorem content_length_header_digits (n : Nat) :
    ∀ d ∈ content_length_header n, 48 ≤ d ∧ d ≤ 57 := by
  intro d hd
  simp only [content_length_header, List.mem_append, List.mem_replicate,
    List.mem_map, List.mem_reverse] at hd
  rcases hd with ⟨_, hd⟩ | ⟨d0, hd0, hd⟩
  · omega
  · have := dec_le_digit_lt CONTENT_LENGTH_DIGITS n d0 hd0
    omega

/-- Reading digits most significant first accumulates the little-endian
value. -/
theorem foldl_digits : ∀ (l : List Nat) (a : Nat),
    List.foldl (fun a d => a * 10 + (d - 48)) a
        (l.reverse.map (fun d => d + 48))
      = a * 10 ^ l.length + le_value l := by
  intro l
  induction l with
  | nil => intro a; simp [le_value]
  | cons d t ih =>
      intro a
      simp only [List.reverse_cons, List.map_append, List.map_cons,
        List.map_nil, List.foldl_append, ih a, List.foldl_cons, List.foldl_nil,
        le_value, List.length_cons]
      have : d + 48 - 48 = d := by omega
      rw [this, pow_succ]
      ring

/-- Leading `'0'` padding contributes nothing to the read value. -/
theorem foldl_zeros : ∀ k : Nat,
    List.foldl (fun a d => a * 10 + (d - 48)) 0 (List.replicate k 48) = 0 := by
  intro k
  induction k with
  | zero => rfl
  | succ m ih => simpa [List.replicate_succ] using ih

/-- The ten header digits decode to the content length, for every length
below `10^10` (so for every C `unsigned int`). -/
theorem dec_value_header (n : Nat) (hn : n < 10 ^ CONTENT_LENGTH_DIGITS) :
    dec_value (content_length_header n) = n := by
  simp only [dec_value, content_length_header, List.foldl_append, foldl_zeros]
  rw [foldl_digits]
  simp [le_value_dec_le CONTENT_LENGTH_DIGITS n hn]

/-! ## Helper lemmas for byte ranges -/

/-- Unfold one buffer hop of `range_bytes`. -/
theorem range_bytes_cons (chain : List (List Nat)) (b1 p1 b2 p2 : Nat)
    (hlt : b1 < b2) :
    range_bytes chain ⟨b1, p1⟩ ⟨b2, p2⟩
      = (buf_data chain b1).drop p1 ++ range_bytes chain ⟨b1 + 1, 0⟩ ⟨b2, p2⟩ := by
  have h1 : b2 - b1 = (b2 - (b1 + 1)) + 1 := by omega
  simp only [range_bytes, h1]
  rfl

/-- `buf_data` of an index inside the chain is the `getElem`. -/
theorem buf_data_eq_getElem (chain : List (List Nat)) (i : Nat)
    (h : i < chain.length) : buf_data chain i = chain[i] := by
  simp [buf_data, List.getD_eq_getElem?_getD, List.getElem?_eq_getElem h]

/-- The length of a cursor range equals the C `content_length` formula. -/
theorem content_length_aux (chain : List (List Nat)) (b2 p2 : Nat) :
    ∀ k b1 p1, b2 - b1 = k → b1 ≤ b2 → b2 < chain.length →
      p1 ≤ buf_size chain b1 → p2 ≤ buf_size chain b2 →
      (b1 = b2 → p1 ≤ p2) →
      (range_bytes chain ⟨b1, p1⟩ ⟨b2, p2⟩).length
        = content_length chain ⟨⟨b1, p1⟩, ⟨b2, p2⟩, .s_sending_response⟩ := by
  intro k
  induction k with
  | zero =>
      intro b1 p1 hk hle hlen hp1 hp2 hsame
      have hb : b1 = b2 := by omega
      subst hb
      have hp2x : p2 ≤ (buf_data chain b1).length := hp2
      have hcl : content_length chain ⟨⟨b1, p1⟩, ⟨b1, p2⟩, .s_sending_response⟩
          = p2 - p1 := by
        simp [content_length]
      rw [hcl]
      simp only [range_bytes, Nat.sub_self, range_bytes_fuel, List.length_drop,
        List.length_take]
      rw [Nat.min_eq_left hp2x]
  | succ m ih =>
      intro b1 p1 hk hle hlen hp1 hp2 hsame
      have hlt : b1 < b2 := by omega
      rw [range_bytes_cons chain b1 p1 b2 p2 hlt]
      rw [List.length_append, List.length_drop]
      have hrec := ih (b1 + 1) 0 (by omega) (by omega) hlen (Nat.zero_le _)
        hp2 (fun hh => Nat.zero_le _)
      rw [hrec]
      have hbne : ¬ b1 = b2 := by omega
      have hclo : content_length chain ⟨⟨b1, p1⟩, ⟨b2, p2⟩, .s_sending_response⟩
          = (buf_size chain b1 - p1)
            + (((chain.drop (b1 + 1)).take (b2 - (b1 + 1))).map List.length).sum
            + p2 := by
        simp only [content_length]
        rw [if_neg hbne]
      rw [hclo]
      by_cases hnext : b1 + 1 = b2
      · have hcl2 : content_length chain
            ⟨⟨b1 + 1, 0⟩, ⟨b2, p2⟩, .s_sending_response⟩ = p2 := by
          simp [content_length, hnext]
        rw [hcl2]
        have hz : b2 - (b1 + 1) = 0 := by omega
        rw [hz]
        simp only [List.take_zero, List.map_nil, List.sum_nil]
        have hbs : buf_size chain b1 = (buf_data chain b1).length := rfl
        omega
      · have hin : b1 + 1 < chain.length := by omega
        have hcl2 : content_length chain
            ⟨⟨b1 + 1, 0⟩, ⟨b2, p2⟩, .s_sending_response⟩
            = (buf_size chain (b1 + 1) - 0)
              + (((chain.drop (b1 + 1 + 1)).take (b2 - (b1 + 1 + 1))).map
                  List.length).sum
              + p2 := by
          simp only [content_length]
          rw [if_neg hnext]
        rw [hcl2]
        have hmid : (chain.drop (b1 + 1)).take (b2 - (b1 + 1))
            = chain[b1 + 1] :: (chain.drop (b1 + 1 + 1)).take (b2 - (b1 + 1 + 1)) := by
          rw [List.drop_eq_getElem_cons hin]
          have h2 : b2 - (b1 + 1) = (b2 - (b1 + 1 + 1)) + 1 := by omega
          rw [h2, List.take_succ_cons]
        rw [hmid]
        simp only [List.map_cons, List.sum_cons]
        have hsz : buf_size chain (b1 + 1) = chain[b1 + 1].length := by
          rw [buf_size, buf_data_eq_getElem chain (b1 + 1) hin]
        have hbs : buf_size chain b1 = (buf_data chain b1).length := rfl
        omega

/-- `content_length` is the length of the range between the cursors. -/
theorem content_length_eq (chain : List (List Nat)) (c : write_client)
    (hok : cursors_ok chain c) :
    content_length chain c
      = (range_bytes chain c.write_begin c.write_end).length := by
  obtain ⟨hlen, hle, hp1, hp2, hsame⟩ := hok
  have h := content_length_aux chain c.write_end.b c.write_end.pos
    (c.write_end.b - c.write_begin.b) c.write_begin.b c.write_begin.pos
    rfl hle hlen hp1 hp2 hsame
  have hcl : content_length chain
      ⟨⟨c.write_begin.b, c.write_begin.pos⟩,
       ⟨c.write_end.b, c.write_end.pos⟩, .s_sending_response⟩
      = content_length chain c := by
    simp [content_length]
  rw [← hcl, ← h]

end Writeval

namespace Writeval

/-- A cursor range within one buffer. -/
theorem range_bytes_same (chain : List (List Nat)) (d1 d2 : dpointer)
    (h : d1.b = d2.b) :
    range_bytes chain d1 d2
      = ((buf_data chain d1.b).take d2.pos).drop d1.pos := by
  have h0 : d2.b - d1.b = 0 := by omega
  simp only [range_bytes, h0]
  rfl

/-- Unfold one buffer hop of `range_bytes`, cursor form. -/
theorem range_bytes_cons_d (chain : List (List Nat)) (d1 d2 : dpointer)
    (h : d1.b < d2.b) :
    range_bytes chain d1 d2
      = (buf_data chain d1.b).drop d1.pos
        ++ range_bytes chain ⟨d1.b + 1, 0⟩ d2 := by
  have h1 : d2.b - d1.b = (d2.b - (d1.b + 1)) + 1 := by omega
  simp only [range_bytes, h1]
  rfl

/-- A one-buffer range whose begin has caught up with its end is empty. -/
theorem range_bytes_empty (chain : List (List Nat)) (d1 d2 : dpointer)
    (h : d1.b = d2.b) (hge : d2.pos ≤ d1.pos) :
    range_bytes chain d1 d2 = [] := by
  rw [range_bytes_same chain d1 d2 h]
  apply List.drop_of_length_le
  calc ((buf_data chain d1.b).take d2.pos).length
      ≤ d2.pos := List.length_take_le _ _
  _ ≤ d1.pos := hge

/-- Splitting a one-buffer range at `k` accepted bytes. -/
theorem chunk_split_same (l : List Nat) (p1 p2 k : Nat) (hk : k ≤ p2 - p1) :
    (((l.drop p1).take (p2 - p1)).take k) ++ ((l.take p2).drop (p1 + k))
      = (l.take p2).drop p1 := by
  rw [List.drop_take, List.drop_take, List.take_take, Nat.min_eq_left hk,
    ← List.drop_drop]
  have harith : p2 - (p1 + k) = (p2 - p1) - k := by omega
  rw [harith, ← List.take_add]
  congr 1
  omega

/-- The whole rest of one buffer, as `write_record` takes it. -/
theorem chunk_full (l : List Nat) (p1 : Nat) :
    (l.drop p1).take (l.length - p1) = l.drop p1 := by
  apply List.take_of_length_le
  simp


/-- One completed payload `writev` (`write_length` clear) preserves the
pending range: the received bytes concatenated with the remaining range
equal the range before the call; cursor validity is preserved, the end
cursor is untouched, and the state either stays or flips to
`s_wait_close` exactly when the range is exhausted. -/
theorem write_record_payload_step (chain : List (List Nat))
    (c : write_client) (n : Nat) (c1 : write_client) (out : List Nat)
    (hok : cursors_ok chain c)
    (hw : write_record chain c false n = some (c1, out)) :
    out ++ range_bytes chain c1.write_begin c1.write_end
        = range_bytes chain c.write_begin c.write_end
    ∧ cursors_ok chain c1
    ∧ c1.write_end = c.write_end
    ∧ (c1.state = c.state
        ∨ (c1.state = .s_wait_close
            ∧ range_bytes chain c1.write_begin c1.write_end = [])) := by
  obtain ⟨hblen, hble, hp1, hp2, hsame⟩ := hok
  by_cases hb : c.write_begin.b = c.write_end.b
  · -- the record lives in a single buffer
    have hp12 : c.write_begin.pos ≤ c.write_end.pos := hsame hb
    have hp1b : c.write_begin.pos ≤ buf_size chain c.write_end.b := by
      rw [← hb]
      exact hp1
    simp only [write_record, Bool.false_eq_true, false_and, if_false,
      List.nil_append, List.length_nil, Nat.sub_zero, Nat.zero_add,
      hb, ne_eq, eq_self_iff_true, not_true, false_or, if_true] at hw
    split_ifs at hw with hgt hstay
    · -- more bytes of the single buffer remain
      have hpair := Option.some.inj hw
      rw [Prod.mk.injEq] at hpair
      obtain ⟨hc1, hout⟩ := hpair
      subst hc1
      subst hout
      dsimp only
      refine ⟨?_, ⟨hblen, le_refl _, le_of_lt hstay.1, hp2,
        fun _ => le_of_lt hstay.2⟩, rfl, Or.inl rfl⟩
      rw [range_bytes_same chain c.write_begin c.write_end hb,
        range_bytes_same chain
          (⟨c.write_end.b, c.write_begin.pos + n⟩ : dpointer) c.write_end rfl]
      have hDbb : buf_data chain c.write_begin.b
          = buf_data chain c.write_end.b := by rw [hb]
      rw [hDbb]
      exact chunk_split_same (buf_data chain c.write_end.b)
        c.write_begin.pos c.write_end.pos n (by omega)
    · -- the single buffer is exhausted: response complete
      have hpair := Option.some.inj hw
      rw [Prod.mk.injEq] at hpair
      obtain ⟨hc1, hout⟩ := hpair
      subst hc1
      subst hout
      have hpos2 : c.write_begin.pos + n = c.write_end.pos := by
        rcases not_and_or.mp hstay with hge | hge
        · have hp2s : c.write_end.pos ≤ buf_size chain c.write_end.b := hp2
          omega
        · omega
      have hempty : range_bytes chain
          (⟨c.write_end.b, c.write_begin.pos + n⟩ : dpointer) c.write_end = [] :=
        range_bytes_empty chain _ c.write_end rfl
          (by show c.write_end.pos ≤ c.write_begin.pos + n
              omega)
      refine ⟨?_, ⟨hblen, le_refl _,
        (by show c.write_begin.pos + n ≤ buf_size chain c.write_end.b
            omega),
        hp2,
        fun _ => (by show c.write_begin.pos + n ≤ c.write_end.pos
                     omega)⟩, rfl,
        Or.inr ⟨rfl, hempty⟩⟩
      rw [hempty, List.append_nil,
        range_bytes_same chain c.write_begin c.write_end hb]
      have hDbb : buf_data chain c.write_begin.b
          = buf_data chain c.write_end.b := by rw [hb]
      rw [hDbb, List.drop_take]
      apply List.take_of_length_le
      calc (((buf_data chain c.write_end.b).drop c.write_begin.pos).take
            (c.write_end.pos - c.write_begin.pos)).length
          ≤ c.write_end.pos - c.write_begin.pos := List.length_take_le _ _
      _ ≤ n := by omega
  · -- the range continues into a later buffer
    have hlt : c.write_begin.b < c.write_end.b := lt_of_le_of_ne hble hb
    simp only [write_record, Bool.false_eq_true, false_and, if_false,
      List.nil_append, List.length_nil, Nat.sub_zero, Nat.zero_add,
      hb, ne_eq, not_false_eq_true, true_or, and_true, if_true] at hw
    have hchunk : ((buf_data chain c.write_begin.b).drop c.write_begin.pos).take
        (buf_size chain c.write_begin.b - c.write_begin.pos)
        = (buf_data chain c.write_begin.b).drop c.write_begin.pos :=
      chunk_full (buf_data chain c.write_begin.b) c.write_begin.pos
    rw [hchunk] at hw
    split_ifs at hw with hgt hstay
    · -- more bytes of the current buffer remain
      have hpair := Option.some.inj hw
      rw [Prod.mk.injEq] at hpair
      obtain ⟨hc1, hout⟩ := hpair
      subst hc1
      subst hout
      dsimp only
      refine ⟨?_, ⟨hblen, hble, le_of_lt hstay, hp2,
        fun hcontra => absurd hcontra hb⟩, rfl, Or.inl rfl⟩
      rw [range_bytes_cons_d chain c.write_begin c.write_end hlt,
        range_bytes_cons_d chain
          (⟨c.write_begin.b, c.write_begin.pos + n⟩ : dpointer) c.write_end hlt,
        ← List.append_assoc]
      congr 1
      rw [← List.drop_drop, List.take_append_drop]
    · -- the current buffer is exhausted: move to the next one
      have hpair := Option.some.inj hw
      rw [Prod.mk.injEq] at hpair
      obtain ⟨hc1, hout⟩ := hpair
      subst hc1
      subst hout
      dsimp only
      refine ⟨?_, ⟨hblen,
        (by show c.write_begin.b + 1 ≤ c.write_end.b
            omega),
        Nat.zero_le _, hp2, fun _ => Nat.zero_le _⟩, rfl, Or.inl rfl⟩
      rw [range_bytes_cons_d chain c.write_begin c.write_end hlt]
      congr 1
      apply List.take_of_length_le
      calc ((buf_data chain c.write_begin.b).drop c.write_begin.pos).length
          = buf_size chain c.write_begin.b - c.write_begin.pos := by
            rw [List.length_drop]
            rfl
      _ ≤ n := by omega

/-- The first send of `write_record` is the pure payload send on the
byte count left after the header, with the header prepended to what the
peer receives (valid once `writev` accepted at least the header, which
`write_record` enforces by exiting otherwise). -/
theorem write_record_first_eq (chain : List (List Nat)) (c : write_client)
    (n : Nat) (h10 : CONTENT_LENGTH_DIGITS ≤ n) :
    write_record chain c true n
      = Option.map
          (fun p => (p.1,
            content_length_header (content_length chain c) ++ p.2))
          (write_record chain c false
            (n - (content_length_header (content_length chain c)).length)) := by
  have hL : (content_length_header (content_length chain c)).length
      = CONTENT_LENGTH_DIGITS := content_length_header_length _
  simp only [write_record, Bool.false_eq_true, false_and, if_false,
    List.nil_append, List.length_nil, Nat.sub_zero, Nat.zero_add,
    eq_self_iff_true, if_true, true_and]
  rw [if_neg (show ¬(n < CONTENT_LENGTH_DIGITS) from by omega)]
  by_cases hg : n > (content_length_header (content_length chain c)).length
      + (if c.write_begin.b = c.write_end.b
         then c.write_end.pos - c.write_begin.pos
         else buf_size chain c.write_begin.b - c.write_begin.pos)
  · rw [if_pos hg, if_pos (by omega)]
    rfl
  · have hng : ¬(n - (content_length_header (content_length chain c)).length
        > (if c.write_begin.b = c.write_end.b
           then c.write_end.pos - c.write_begin.pos
           else buf_size chain c.write_begin.b - c.write_begin.pos)) := by
      omega
    rw [if_neg hg, if_neg hng]
    have hrecv : ((content_length_header (content_length chain c))
          ++ ((buf_data chain c.write_begin.b).drop c.write_begin.pos).take
            (if c.write_begin.b = c.write_end.b
             then c.write_end.pos - c.write_begin.pos
             else buf_size chain c.write_begin.b - c.write_begin.pos)).take n
        = content_length_header (content_length chain c)
          ++ (((buf_data chain c.write_begin.b).drop c.write_begin.pos).take
            (if c.write_begin.b = c.write_end.b
             then c.write_end.pos - c.write_begin.pos
             else buf_size chain c.write_begin.b - c.write_begin.pos)).take
            (n - (content_length_header (content_length chain c)).length) := by
      rw [List.take_append_eq_append_take,
        List.take_of_length_le (by omega)]
    rw [hrecv]
    split_ifs <;> rfl

/-- Once a client is in `s_wait_close` the write loop sends nothing
further. -/
theorem run_write_stopped (chain : List (List Nat)) (c : write_client)
    (first : Bool) (ns : List Nat) (h : c.state = .s_wait_close) :
    run_write chain c first ns = some (c, []) := by
  cases ns with
  | nil => rfl
  | cons n rest =>
      simp only [run_write, if_pos h]

/-- Payload phase of a response: starting in `s_sending_response`, any
schedule of completed writes that reaches `s_wait_close` delivers exactly
the pending byte range. -/
theorem run_write_sending (chain : List (List Nat)) :
    ∀ (ns : List Nat) (c cF : write_client) (out : List Nat),
      cursors_ok chain c → c.state = .s_sending_response →
      run_write chain c false ns = some (cF, out) →
      cF.state = .s_wait_close →
      out = range_bytes chain c.write_begin c.write_end := by
  intro ns
  induction ns with
  | nil =>
      intro c cF out hok hst hrun hdone
      have hpair := Option.some.inj hrun
      rw [Prod.mk.injEq] at hpair
      rw [← hpair.1, hst] at hdone
      exact absurd hdone (by simp)
  | cons n rest ih =>
      intro c cF out hok hst hrun hdone
      have hnw : ¬c.state = .s_wait_close := by
        rw [hst]
        simp
      simp only [run_write, if_neg hnw] at hrun
      cases hwr : write_record chain c false n with
      | none =>
          rw [hwr] at hrun
          exact Option.noConfusion hrun
      | some p =>
          obtain ⟨c1, o1⟩ := p
          rw [hwr] at hrun
          dsimp only at hrun
          obtain ⟨heq, hok1, hwe1, hdicho⟩ :=
            write_record_payload_step chain c n c1 o1 hok hwr
          rcases hdicho with hst1 | ⟨hst1, hemp⟩
          · cases hrr : run_write chain c1 false rest with
            | none =>
                rw [hrr] at hrun
                exact Option.noConfusion hrun
            | some q =>
                obtain ⟨c2, o2⟩ := q
                rw [hrr] at hrun
                dsimp only at hrun
                have hpair := Option.some.inj hrun
                rw [Prod.mk.injEq] at hpair
                have ho2 := ih c1 c2 o2 hok1 (hst1.trans hst) hrr
                  (by rw [hpair.1]; exact hdone)
                rw [← hpair.2, ho2]
                exact heq
          · rw [run_write_stopped chain c1 false rest hst1] at hrun
            dsimp only at hrun
            have hpair := Option.some.inj hrun
            rw [Prod.mk.injEq] at hpair
            rw [← hpair.2, List.append_nil, ← heq, hemp, List.append_nil]

/-- C3: a successful read response is exactly `CONTENT_LENGTH_DIGITS`
zero-padded ASCII digits (the `%010u` rendering of the record length)
followed by exactly that many raw bytes, which equal, byte for byte, the
chain range from `current_record_begin` to `current_record_end`
snapshotted when the client entered `s_sending_response` — for every way
the successive `writev` calls split the transfer.  `ns` is the sequence
of byte counts the completed `writev` calls return; reaching
`s_wait_close` means the response was fully sent.  The length hypothesis
holds for every C `unsigned int` length. -/
theorem write_record_response (chain : List (List Nat)) (crb cre : dpointer)
    (ns : List Nat) (cF : write_client) (out : List Nat)
    (hok : cursors_ok chain (snapshot_client crb cre))
    (hrun : run_write chain (snapshot_client crb cre) true ns = some (cF, out))
    (hdone : cF.state = .s_wait_close) :
    out = content_length_header
            (content_length chain (snapshot_client crb cre))
          ++ range_bytes chain crb cre
    ∧ (content_length_header
        (content_length chain (snapshot_client crb cre))).length
        = CONTENT_LENGTH_DIGITS
    ∧ (∀ d ∈ content_length_header
        (content_length chain (snapshot_client crb cre)),
        48 ≤ d ∧ d ≤ 57)
    ∧ content_length chain (snapshot_client crb cre)
        = (range_bytes chain crb cre).length
    ∧ (content_length chain (snapshot_client crb cre)
          < 10 ^ CONTENT_LENGTH_DIGITS →
        dec_value (content_length_header
          (content_length chain (snapshot_client crb cre)))
          = content_length chain (snapshot_client crb cre)) := by
  have hout : out = content_length_header
      (content_length chain (snapshot_client crb cre))
      ++ range_bytes chain crb cre := by
    cases ns with
    | nil =>
        have hpair := Option.some.inj hrun
        rw [Prod.mk.injEq] at hpair
        rw [← hpair.1] at hdone
        exact absurd hdone (by simp [snapshot_client])
    | cons n rest =>
        have hnw : ¬(snapshot_client crb cre).state = .s_wait_close := by
          simp [snapshot_client]
        simp only [run_write, if_neg hnw] at hrun
        by_cases h10 : CONTENT_LENGTH_DIGITS ≤ n
        · rw [write_record_first_eq chain (snapshot_client crb cre) n h10]
            at hrun
          cases hwf : write_record chain (snapshot_client crb cre) false
              (n - (content_length_header
                (content_length chain (snapshot_client crb cre))).length) with
          | none =>
              rw [hwf] at hrun
              exact Option.noConfusion hrun
          | some p =>
              obtain ⟨c1, o1⟩ := p
              rw [hwf] at hrun
              simp only [Option.map_some'] at hrun
              obtain ⟨heq, hok1, hwe1, hdicho⟩ :=
                write_record_payload_step chain (snapshot_client crb cre)
                  (n - (content_length_header
                    (content_length chain (snapshot_client crb cre))).length)
                  c1 o1 hok hwf
              rcases hdicho with hst1 | ⟨hst1, hemp⟩
              · cases hrr : run_write chain c1 false rest with
                | none =>
                    rw [hrr] at hrun
                    exact Option.noConfusion hrun
                | some q =>
                    obtain ⟨c2, o2⟩ := q
                    rw [hrr] at hrun
                    have hpair := Option.some.inj hrun
                    rw [Prod.mk.injEq] at hpair
                    have ho2 := run_write_sending chain rest c1 c2 o2 hok1
                      (by rw [hst1]; rfl) hrr
                      (by rw [hpair.1]; exact hdone)
                    rw [← hpair.2, ho2, List.append_assoc, heq]
                    rfl
              · rw [run_write_stopped chain c1 false rest hst1] at hrun
                have hpair := Option.some.inj hrun
                rw [Prod.mk.injEq] at hpair
                rw [← hpair.2, List.append_nil]
                have hsb : (snapshot_client crb cre).write_begin = crb := rfl
                have hse : (snapshot_client crb cre).write_end = cre := rfl
                rw [hsb, hse] at heq
                congr 1
                rw [← heq, hemp, List.append_nil]
        · have hnone : write_record chain (snapshot_client crb cre) true n
              = none := by
            simp only [write_record]
            split_ifs <;>
              first
              | rfl
              | exact absurd
                  (show True ∧ n < CONTENT_LENGTH_DIGITS from
                    ⟨trivial, by omega⟩)
                  (by assumption)
          rw [hnone] at hrun
          exact Option.noConfusion hrun
  refine ⟨hout, content_length_header_length _,
    content_length_header_digits _, ?_, fun hlt => dec_value_header _ hlt⟩
  exact content_length_eq chain (snapshot_client crb cre) hok

/-- C3 witness: `write_record_response` on the three-buffer chain
`[1,2,3] [4,5] [6,7,8]` with the record spanning from byte 1 of the first
buffer to byte 2 of the last, delivered as a 12-byte first write then two
short writes. -/
theorem write_record_response_w :
    ((run_write [[1, 2, 3], [4, 5], [6, 7, 8]]
        (snapshot_client ⟨0, 1⟩ ⟨2, 2⟩) true [12, 2, 2]).map Prod.snd
      = some (content_length_header
          (content_length [[1, 2, 3], [4, 5], [6, 7, 8]]
            (snapshot_client ⟨0, 1⟩ ⟨2, 2⟩))
        ++ range_bytes [[1, 2, 3], [4, 5], [6, 7, 8]] ⟨0, 1⟩ ⟨2, 2⟩))
    ∧ content_length [[1, 2, 3], [4, 5], [6, 7, 8]]
        (snapshot_client ⟨0, 1⟩ ⟨2, 2⟩)
      = (range_bytes [[1, 2, 3], [4, 5], [6, 7, 8]] ⟨0, 1⟩ ⟨2, 2⟩).length
    ∧ dec_value (content_length_header
        (content_length [[1, 2, 3], [4, 5], [6, 7, 8]]
          (snapshot_client ⟨0, 1⟩ ⟨2, 2⟩)))
      = content_length [[1, 2, 3], [4, 5], [6, 7, 8]]
          (snapshot_client ⟨0, 1⟩ ⟨2, 2⟩) := by
  have h := write_record_response [[1, 2, 3], [4, 5], [6, 7, 8]]
    ⟨0, 1⟩ ⟨2, 2⟩ [12, 2, 2]
    ⟨⟨2, 2⟩, ⟨2, 2⟩, .s_wait_close⟩
    [48, 48, 48, 48, 48, 48, 48, 48, 48, 54, 2, 3, 4, 5, 6, 7]
    (by decide) (by decide) (by decide)
  exact ⟨by rw [← h.1]; decide, h.2.2.2.1, h.2.2.2.2 (by decide)⟩

end Writeval
